import Mathlib

/-!
# Verification of the GoodPDF content-fitting and rendering engine

This file gives a shallow embedding of the GoodPDF engine's core algorithms and
proves the specification's claims about them:

* the content block model and block-weight heuristic (`Block`, `getBlockWeight`),
* the content fitting pass (`optimizeContentToFit`, trimming and scaling),
* the pagination pass (`paginateContent`),
* the page-size resolver and the z-ordered renderer (`resolvePageSize`, `sortByZ`),
* the content-model adapter (`buildContentStep`, cursor arithmetic).

JavaScript `number` arithmetic is modelled with `ℚ` (the decimal literals such as
`1.1` or `0.88` are read exactly; at the integer block-weight magnitudes the engine
works with, binary floating point and exact decimals order all compared quantities
identically).  Nullable JavaScript values are modelled with `Option`.
-/

namespace GoodPDF

/-- A loosely-typed content block as produced by the upstream generator.
The engine only ever reads the `type` discriminator plus the textual payload
fields used by the weight heuristic and the adapter (`text`, `term`,
`definition`, `value`, `label`); missing JS fields are the empty string. -/
structure Block where
  type : String
  text : String
  term : String
  definition : String
  value : String
  label : String
deriving DecidableEq, Repr

/-- Build a block with only a `type` and a `text` payload (the other fields absent). -/
def mkBlock (type text : String) : Block :=
  ⟨type, text, "", "", "", ""⟩

/-- `countWords`: trim, split on whitespace, keep the non-empty pieces.
(JS: `str.trim().split(/\s+/).filter(w => w.length > 0).length`; splitting on
every whitespace character and discarding empty pieces counts the same words.) -/
def countWords (s : String) : Nat :=
  ((s.split (fun c => c.isWhitespace)).filter (fun w => w.length > 0)).length

/-- `getBlockWeight`: the visual-weight heuristic.  A null block weighs 0; a
paragraph weighs `ceil(words * 0.8 + 30)` (here `30 + ⌈4w/5⌉` over `ℕ`); other
known types have fixed weights; unknown types default to 80. -/
def getBlockWeight : Option Block → Nat
  | none => 0
  | some b =>
    match b.type with
    | "h2" => 100
    | "h3" => 70
    | "p" => 30 + (4 * countWords b.text + 4) / 5
    | "image_prompt" => 320
    | "stat" => 200
    | "key_term" => 180
    | "case_study" => 280
    | "table" => 250
    | "takeaway" => 100
    | "quote" => 120
    | _ => 80

/-- Total weight of a (possibly null-holed) block array, as the source's
`blocks.reduce((sum, b) => sum + getBlockWeight(b), 0)`. -/
def totalWeight (bs : List (Option Block)) : Nat :=
  (bs.map getBlockWeight).sum

/-- Total weight of a plain block list. -/
def weightSum (bs : List Block) : Nat :=
  (bs.map (fun b => getBlockWeight (some b))).sum

/-- The synthetic filler page appended by `paginateContent` when content runs out. -/
def placeholderContent : List Block :=
  [ mkBlock "h2" "Additional Analysis",
    mkBlock "p" "This section provides further analysis and insights that complement the main content presented in this document. The additional material helps to provide a more comprehensive understanding of the topic.",
    mkBlock "p" "Further research and investigation could explore additional aspects of this subject matter, including case studies, comparative analyses, and practical applications.",
    ⟨"key_term", "", "Research Implications", "The broader impact and significance of the findings for future studies and practical applications in this field.", "", ""⟩ ]

/-- The greedy accumulation loop of `paginateContent`: walk the blocks, closing
the current page when the next block would overflow the per-page capacity and
fewer than `contentPages - 1` pages have been emitted.  Returns the emitted
pages and the still-open current page. -/
def paginateLoop (contentPages : Nat) (cap : ℚ) :
    List Block → List (List Block) → List Block → ℚ → List (List Block) × List Block
  | [], pages, cur, _ => (pages, cur)
  | b :: rest, pages, cur, w =>
    let bw : ℚ := (getBlockWeight (some b) : ℚ)
    if w + bw > cap ∧ pages.length < contentPages - 1 then
      paginateLoop contentPages cap rest (pages ++ [cur]) [b] bw
    else
      paginateLoop contentPages cap rest pages (cur ++ [b]) (w + bw)

/-- The pages produced by the greedy phase of `paginateContent` (loop plus the
final `if (currentPage.length > 0) pages.push(currentPage)`), before padding
and truncation.  `PAGE_CAPACITY = 850 / scale`. -/
def paginateRaw (blocks : List Block) (contentPages : Nat) (scale : ℚ) :
    List (List Block) :=
  let cap : ℚ := 850 / scale
  let r := paginateLoop contentPages cap blocks [] [] 0
  if r.2.isEmpty then r.1 else r.1 ++ [r.2]

/-- `paginateContent(blocks, contentPages, scale)`: empty input short-circuits to
`contentPages` empty groups; otherwise greedy pagination, padding with
`placeholderContent` while short of `contentPages`, then `slice(0, contentPages)`. -/
def paginateContent (blocks : List Block) (contentPages : Nat) (scale : ℚ) :
    List (List Block) :=
  if blocks.isEmpty then List.replicate contentPages []
  else
    let pages := paginateRaw blocks contentPages scale
    (pages ++ List.replicate (contentPages - pages.length) placeholderContent).take
      contentPages

/-! ## Pagination lemmas -/

/-- The emitted pages joined with the open page always hold exactly the blocks
consumed so far, in order. -/
theorem paginateLoop_join (n : Nat) (cap : ℚ) :
    ∀ (bs : List Block) (pages : List (List Block)) (cur : List Block) (w : ℚ),
      (paginateLoop n cap bs pages cur w).1.flatten ++ (paginateLoop n cap bs pages cur w).2
        = pages.flatten ++ (cur ++ bs) := by
  intro bs
  induction bs with
  | nil => intro pages cur w; simp [paginateLoop]
  | cons b rest ih =>
    intro pages cur w
    simp only [paginateLoop]
    split
    · rw [ih]; simp
    · rw [ih]; simp

/-- The loop never emits more than `max pages.length (n - 1)` pages: a page is
only closed while fewer than `n - 1` pages exist. -/
theorem paginateLoop_length (n : Nat) (cap : ℚ) :
    ∀ (bs : List Block) (pages : List (List Block)) (cur : List Block) (w : ℚ),
      (paginateLoop n cap bs pages cur w).1.length ≤ max pages.length (n - 1) := by
  intro bs
  induction bs with
  | nil => intro pages cur w; simp [paginateLoop]
  | cons b rest ih =>
    intro pages cur w
    simp only [paginateLoop]
    split
    · rename_i h
      have h2 := ih (pages ++ [cur]) [b] ((getBlockWeight (some b) : ℚ))
      simp at h2
      omega
    · exact ih pages (cur ++ [b]) _

/-- The greedy phase reproduces the input exactly: joining its pages gives back
the block list. -/
theorem paginateRaw_join (blocks : List Block) (n : Nat) (scale : ℚ) :
    (paginateRaw blocks n scale).flatten = blocks := by
  have h := paginateLoop_join n (850 / scale) blocks [] [] 0
  simp only [paginateRaw]
  split
  · rename_i he
    rw [List.isEmpty_iff] at he
    rw [he] at h
    simpa using h
  · simpa using h

/-- With `n ≥ 1` the greedy phase emits at most `n` pages. -/
theorem paginateRaw_length (blocks : List Block) (n : Nat) (scale : ℚ) (hn : 1 ≤ n) :
    (paginateRaw blocks n scale).length ≤ n := by
  have h := paginateLoop_length n (850 / scale) blocks [] [] 0
  simp only [paginateRaw]
  split
  · simp at h; omega
  · simp at h ⊢; omega

/-- Every member of a list of lists occurs contiguously inside the join. -/
theorem mem_flatten_decomp (L : List (List Block)) (g : List Block) (hg : g ∈ L) :
    ∃ s t, s ++ g ++ t = L.flatten := by
  induction L with
  | nil => cases hg
  | cons a rest ih =>
    rcases List.mem_cons.mp hg with h | h
    · exact ⟨[], rest.flatten, by simp [h]⟩
    · obtain ⟨s, t, hst⟩ := ih h
      exact ⟨a ++ s, t, by simp [← hst]⟩

/-- C1.  `paginateContent` returns exactly `contentPages` page-groups for every
block list, every `contentPages ≥ 1` and every positive scale. -/
theorem paginateContent_length (blocks : List Block) (n : Nat) (scale : ℚ)
    (hn : 1 ≤ n) (hs : 0 < scale) :
    (paginateContent blocks n scale).length = n := by
  simp only [paginateContent]
  split
  · simp
  · simp only [List.length_take, List.length_append, List.length_replicate]
    omega

/-- Witness for C1 at concrete input `blocks = []`, `contentPages = 3`, `scale = 1`. -/
theorem paginateContent_length_witness :
    1 ≤ 3 ∧ (0 : ℚ) < 1 ∧ (paginateContent [] 3 1).length = 3 :=
  ⟨by decide, by norm_num,
    paginateContent_length [] 3 1 (by decide) (by norm_num)⟩

/-- C2 counterexample.  On empty input with `contentPages = 3` the early return
yields three *empty* page-groups; they are not filled with the synthetic filler
content. -/
theorem paginateContent_empty_counterexample :
    paginateContent [] 3 1 = [[], [], []] ∧ ([] : List Block) ≠ placeholderContent := by
  constructor
  · rfl
  · simp [placeholderContent]

/-- C2 (amended).  Empty block input with any `contentPages` yields exactly
`contentPages` empty page-groups (not an error, never fewer); the synthetic
filler is only appended on the non-empty path. -/
theorem paginateContent_empty_groups (n : Nat) (scale : ℚ) :
    paginateContent [] n scale = List.replicate n [] := rfl

/-- C10.  Pagination preserves content and order: for non-empty input the result
is the greedily-built groups followed only by filler pages; concatenating the
non-filler groups restores the input exactly (no block dropped, duplicated or
reordered), each group is a contiguous segment of the input, and the final
truncation discards no input block since at most `contentPages` groups exist. -/
theorem paginateContent_preserves_content (blocks : List Block) (n : Nat) (scale : ℚ)
    (hb : blocks ≠ []) (hn : 1 ≤ n) (hs : 0 < scale) :
    ∃ groups : List (List Block),
      paginateContent blocks n scale
          = groups ++ List.replicate (n - groups.length) placeholderContent
        ∧ groups.flatten = blocks
        ∧ groups.length ≤ n
        ∧ ∀ g ∈ groups, ∃ s t, s ++ g ++ t = blocks := by
  refine ⟨paginateRaw blocks n scale, ?_, paginateRaw_join blocks n scale,
    paginateRaw_length blocks n scale hn, ?_⟩
  · simp only [paginateContent]
    rw [if_neg (by simpa using hb)]
    have hlen := paginateRaw_length blocks n scale hn
    apply List.take_of_length_le
    simp only [List.length_append, List.length_replicate]
    omega
  · intro g hg
    have := mem_flatten_decomp _ g hg
    rwa [paginateRaw_join blocks n scale] at this

/-- Witness for C10 at the one-paragraph input, `contentPages = 1`, `scale = 1`. -/
theorem paginateContent_preserves_content_witness :
    ([mkBlock "p" "hello"] : List Block) ≠ [] ∧ 1 ≤ 1 ∧ (0 : ℚ) < 1 ∧
      (∃ groups : List (List Block),
        paginateContent [mkBlock "p" "hello"] 1 1
            = groups ++ List.replicate (1 - groups.length) placeholderContent
          ∧ groups.flatten = [mkBlock "p" "hello"]
          ∧ groups.length ≤ 1
          ∧ ∀ g ∈ groups, ∃ s t, s ++ g ++ t = [mkBlock "p" "hello"]) :=
  ⟨by simp [mkBlock], le_refl 1, by norm_num,
    paginateContent_preserves_content [mkBlock "p" "hello"] 1 1
      (by simp [mkBlock]) (le_refl 1) (by norm_num)⟩

/-! ## Content fitting engine (`optimizeContentToFit`)

The source mutates a copied array, replacing removed entries by `null` and
filtering at the end; we model the array as a `List (Option Block)`.  The
running `currentWeight` counter is a JS number, modelled as `ℚ`. -/

/-- `blocks[i]?.type === t` for an array slot. -/
def slotHasType (t : String) : Option Block → Bool
  | some b => b.type == t
  | none => false

/-- Weight of an array slot as a rational (`getBlockWeight` on a nullable). -/
def weightQ (ob : Option Block) : ℚ :=
  (getBlockWeight ob : ℚ)

/-- The fixed removal priority order of the trimming phase. -/
def removalPriority : List String :=
  ["quote", "takeaway", "stat", "key_term", "image_prompt"]

/-- One type-removal scan, expressed on the *reversed* array so that "from the
end toward the start" is structural recursion: null out each slot of type `t`,
subtracting its weight, and stop (leaving the remainder untouched) as soon as
the running weight drops to the bound. -/
def removeTypeRevAux (t : String) (bound : ℚ) :
    List (Option Block) → ℚ → List (Option Block) × ℚ
  | [], w => ([], w)
  | ob :: rest, w =>
    if slotHasType t ob then
      let w' := w - weightQ ob
      if w' ≤ bound then (none :: rest, w')
      else
        let r := removeTypeRevAux t bound rest w'
        (none :: r.1, r.2)
    else
      let r := removeTypeRevAux t bound rest w
      (ob :: r.1, r.2)

/-- The inner `for (let i = blocks.length - 1; i >= 0; i--)` scan for one type. -/
def removeTypePass (t : String) (bound : ℚ) (bs : List (Option Block)) (w : ℚ) :
    List (Option Block) × ℚ :=
  let r := removeTypeRevAux t bound bs.reverse w
  (r.1.reverse, r.2)

/-- The outer loop over `removalPriority`, breaking once the weight is within
the bound. -/
def removePriorityPhase (bound : ℚ) :
    List String → List (Option Block) → ℚ → List (Option Block) × ℚ
  | [], bs, w => (bs, w)
  | t :: ts, bs, w =>
    if w ≤ bound then (bs, w)
    else
      let r := removeTypePass t bound bs w
      removePriorityPhase bound ts r.1 r.2

/-- Stable insertion (descending weight) used to model the JS stable sort
`paragraphs.sort((a, b) => weight(b.b) - weight(a.b))`: an element is placed
after all strictly heavier ones and after earlier elements of equal weight. -/
def insertParaDesc (p : Nat × Block) : List (Nat × Block) → List (Nat × Block)
  | [] => [p]
  | q :: rest =>
    if getBlockWeight (some q.2) > getBlockWeight (some p.2) then
      q :: insertParaDesc p rest
    else p :: q :: rest

/-- Stable descending-weight sort of the indexed paragraph list. -/
def sortParasDesc : List (Nat × Block) → List (Nat × Block)
  | [] => []
  | p :: rest => insertParaDesc p (sortParasDesc rest)

/-- The indexed paragraph candidates: surviving `p` slots with their positions,
sorted heaviest-first (ties by original position, as the JS stable sort). -/
def paragraphCandidates (bs : List (Option Block)) : List (Nat × Block) :=
  sortParasDesc (bs.enum.filterMap (fun q =>
    match q.2 with
    | some b => if b.type == "p" then some (q.1, b) else none
    | none => none))

/-- The paragraph-removal loop: walk the sorted candidates, nulling each one
out, stopping before a removal once the weight is within the bound. -/
def removeParasLoop (bound : ℚ) :
    List (Nat × Block) → List (Option Block) → ℚ → List (Option Block) × ℚ
  | [], bs, w => (bs, w)
  | p :: ps, bs, w =>
    if w ≤ bound then (bs, w)
    else removeParasLoop bound ps (bs.set p.1 none) (w - weightQ (some p.2))

/-- The whole trimming phase (`PHASE 1` body): priority-type removal, then, if
still above 105% of capacity, longest-first paragraph removal. -/
def trimPhase (cap : Nat) (bs : List (Option Block)) (w : ℚ) :
    List (Option Block) × ℚ :=
  let bound : ℚ := (cap : ℚ) * 1.05
  let r := removePriorityPhase bound removalPriority bs w
  if r.2 > bound then removeParasLoop bound (paragraphCandidates r.1) r.1 r.2
  else r

/-- The diagnostic metrics of a fit pass (the source formats `utilization` as a
percentage string; we keep the exact ratio). -/
structure FitMetrics where
  totalWeight : Nat
  capacity : Nat
  utilization : ℚ
  blockCount : Nat
deriving DecidableEq, Repr

/-- Result of `optimizeContentToFit`; the empty-input early return carries the
empty metrics object (`metrics: {}`), modelled as `none`. -/
structure FitResult where
  blocks : List Block
  scale : ℚ
  metrics : Option FitMetrics
deriving DecidableEq, Repr

/-- The block array after `PHASE 1`: trimming is applied exactly when the total
weight exceeds `contentPages * 850` (the capacity) by more than 10%. -/
def trimmedArray (allBlocks : List Block) (contentPages : Nat) : List (Option Block) :=
  if (totalWeight (allBlocks.map some) : ℚ) > ((contentPages * 850 : Nat) : ℚ) * 1.1 then
    (trimPhase (contentPages * 850) (allBlocks.map some)
      ((totalWeight (allBlocks.map some) : ℚ))).1
  else allBlocks.map some

/-- The post-trim block list (`blocks.filter(b => b !== null)`). -/
def fitBlocks (allBlocks : List Block) (contentPages : Nat) : List Block :=
  (trimmedArray allBlocks contentPages).filterMap id

/-- The post-trim utilization ratio `currentWeight / TOTAL_CAPACITY`
(the weight recomputed from the surviving blocks). -/
def utilizationOf (allBlocks : List Block) (contentPages : Nat) : ℚ :=
  (weightSum (fitBlocks allBlocks contentPages) : ℚ) / ((contentPages * 850 : Nat) : ℚ)

/-- `PHASE 2`: the uniform scale factor derived from the utilization ratio. -/
def fitScale (allBlocks : List Block) (contentPages : Nat) : ℚ :=
  if utilizationOf allBlocks contentPages > 1 then 0.88
  else if utilizationOf allBlocks contentPages < 0.7 then 1.12
  else 1

/-- `optimizeContentToFit(allBlocks, contentPages)`: early return on empty
input; otherwise trim when over capacity, drop the null slots, recompute the
weight, and derive the scale from the utilization ratio. -/
def optimizeContentToFit (allBlocks : List Block) (contentPages : Nat) : FitResult :=
  if allBlocks.isEmpty then ⟨[], 1, none⟩
  else
    ⟨fitBlocks allBlocks contentPages,
     fitScale allBlocks contentPages,
     some ⟨weightSum (fitBlocks allBlocks contentPages), contentPages * 850,
           utilizationOf allBlocks contentPages,
           (fitBlocks allBlocks contentPages).length⟩⟩

/-! ## Fitting-engine lemmas -/

/-- Reducing over an all-`some` array equals the plain block-list weight. -/
theorem totalWeight_map_some (bs : List Block) :
    totalWeight (bs.map some) = weightSum bs := by
  simp [totalWeight, weightSum, List.map_map, Function.comp_def]

/-- Filtering the nulls out of an all-`some` array is the identity. -/
theorem filterMap_id_map_some (bs : List Block) :
    (bs.map some).filterMap id = bs := by
  simp

/-- On non-empty input the fit pass returns the trimmed blocks. -/
theorem optimize_blocks_eq (blocks : List Block) (n : Nat) (hb : blocks ≠ []) :
    (optimizeContentToFit blocks n).blocks = fitBlocks blocks n := by
  simp only [optimizeContentToFit]
  rw [if_neg (by simpa using hb)]

/-- On non-empty input the fit pass returns the derived scale. -/
theorem optimize_scale_eq (blocks : List Block) (n : Nat) (hb : blocks ≠ []) :
    (optimizeContentToFit blocks n).scale = fitScale blocks n := by
  simp only [optimizeContentToFit]
  rw [if_neg (by simpa using hb)]

/-- When the total weight does not exceed capacity by more than 10%, the
trimming phase is skipped and the block list survives unchanged. -/
theorem fitBlocks_of_not_over (blocks : List Block) (n : Nat)
    (h : ¬ ((weightSum blocks : ℚ) > ((n * 850 : Nat) : ℚ) * 1.1)) :
    fitBlocks blocks n = blocks := by
  simp only [fitBlocks, trimmedArray, totalWeight_map_some]
  rw [if_neg h, filterMap_id_map_some]

/-- `optimizeContentToFit` keeps the blocks unchanged when at most 10% over
capacity. -/
theorem optimize_blocks_of_not_over (blocks : List Block) (n : Nat)
    (hb : blocks ≠ [])
    (h : ¬ ((weightSum blocks : ℚ) > ((n * 850 : Nat) : ℚ) * 1.1)) :
    (optimizeContentToFit blocks n).blocks = blocks := by
  rw [optimize_blocks_eq blocks n hb, fitBlocks_of_not_over blocks n h]

/-- C3.  `optimizeContentToFit` is a total function (it never raises — in this
embedding every input reduces to a value), and on empty block input it returns
the empty block list with scale `1.0` (and the empty metrics object). -/
theorem optimize_empty_input (n : Nat) :
    optimizeContentToFit [] n = ⟨[], 1, none⟩ := rfl

/-- C4.  The scale is derived from the post-trim utilization ratio
(`weight / (contentPages * 850)`): `0.88` above `1.0`, `1.12` strictly below
`0.7`, otherwise `1.0`; and an input sitting exactly at utilization `0.7`
triggers neither the trim branch nor the enlarge branch and gets scale `1.0`. -/
theorem optimize_scale_from_utilization (blocks : List Block) (n : Nat)
    (hb : blocks ≠ []) (hn : 1 ≤ n) :
    ((optimizeContentToFit blocks n).scale =
      if (weightSum (optimizeContentToFit blocks n).blocks : ℚ)
          / ((n * 850 : Nat) : ℚ) > 1 then 0.88
      else if (weightSum (optimizeContentToFit blocks n).blocks : ℚ)
          / ((n * 850 : Nat) : ℚ) < 0.7 then 1.12
      else 1)
    ∧ ((weightSum blocks : ℚ) = 0.7 * ((n * 850 : Nat) : ℚ) →
        (optimizeContentToFit blocks n).blocks = blocks
          ∧ (optimizeContentToFit blocks n).scale = 1) := by
  have hbe := optimize_blocks_eq blocks n hb
  have hse := optimize_scale_eq blocks n hb
  constructor
  · rw [hbe, hse]
    simp only [fitScale, utilizationOf]
  · intro h07
    have hcap : (0 : ℚ) ≤ ((n * 850 : Nat) : ℚ) := Nat.cast_nonneg _
    have hne : ¬ ((weightSum blocks : ℚ) > ((n * 850 : Nat) : ℚ) * 1.1) := by
      rw [h07]; nlinarith
    have hfb : fitBlocks blocks n = blocks := fitBlocks_of_not_over blocks n hne
    refine ⟨by rw [hbe, hfb], ?_⟩
    have h1 : (1 : ℚ) ≤ (n : ℚ) := by exact_mod_cast hn
    have hcappos : (0 : ℚ) < ((n * 850 : Nat) : ℚ) := by
      push_cast; nlinarith
    have hdiv : (0.7 : ℚ) * ((n * 850 : Nat) : ℚ) / ((n * 850 : Nat) : ℚ) = 0.7 := by
      field_simp
    rw [hse]
    simp only [fitScale, utilizationOf, hfb, h07, hdiv]
    norm_num

/-- Witness for C4: five statistics, one quote and one sub-heading weigh
`1190 = 0.7 × 1700` against `contentPages = 2` — exactly the boundary scenario. -/
theorem optimize_scale_from_utilization_witness :
    (List.replicate 5 (mkBlock "stat" "") ++ [mkBlock "quote" "", mkBlock "h3" ""]
        : List Block) ≠ []
    ∧ 1 ≤ 2
    ∧ (((optimizeContentToFit
          (List.replicate 5 (mkBlock "stat" "") ++ [mkBlock "quote" "", mkBlock "h3" ""])
          2).scale =
        if (weightSum (optimizeContentToFit
            (List.replicate 5 (mkBlock "stat" "") ++ [mkBlock "quote" "", mkBlock "h3" ""])
            2).blocks : ℚ) / ((2 * 850 : Nat) : ℚ) > 1 then 0.88
        else if (weightSum (optimizeContentToFit
            (List.replicate 5 (mkBlock "stat" "") ++ [mkBlock "quote" "", mkBlock "h3" ""])
            2).blocks : ℚ) / ((2 * 850 : Nat) : ℚ) < 0.7 then 1.12
        else 1)
      ∧ ((weightSum (List.replicate 5 (mkBlock "stat" "")
            ++ [mkBlock "quote" "", mkBlock "h3" ""]) : ℚ)
              = 0.7 * ((2 * 850 : Nat) : ℚ) →
          (optimizeContentToFit
              (List.replicate 5 (mkBlock "stat" "")
                ++ [mkBlock "quote" "", mkBlock "h3" ""]) 2).blocks
            = List.replicate 5 (mkBlock "stat" "") ++ [mkBlock "quote" "", mkBlock "h3" ""]
          ∧ (optimizeContentToFit
              (List.replicate 5 (mkBlock "stat" "")
                ++ [mkBlock "quote" "", mkBlock "h3" ""]) 2).scale = 1)) :=
  ⟨by simp [mkBlock], by decide,
    optimize_scale_from_utilization _ 2 (by simp [mkBlock]) (by decide)⟩

/-- C6.  Idempotence on trimmed output: when the first pass's output sits in the
`[0.95, 1.05]`-of-capacity utilization band, a second pass with the same
`contentPages` removes no blocks. -/
theorem optimize_idempotent_in_band (blocks : List Block) (n : Nat)
    (hlo : 0.95 * ((n * 850 : Nat) : ℚ)
        ≤ (weightSum (optimizeContentToFit blocks n).blocks : ℚ))
    (hhi : (weightSum (optimizeContentToFit blocks n).blocks : ℚ)
        ≤ 1.05 * ((n * 850 : Nat) : ℚ)) :
    (optimizeContentToFit (optimizeContentToFit blocks n).blocks n).blocks
      = (optimizeContentToFit blocks n).blocks := by
  by_cases hb : (optimizeContentToFit blocks n).blocks = []
  · rw [hb]
    rfl
  · apply optimize_blocks_of_not_over _ n hb
    have hcap : (0 : ℚ) ≤ ((n * 850 : Nat) : ℚ) := Nat.cast_nonneg _
    push_neg
    nlinarith

/-- Witness for C6: four statistics plus a sub-heading weigh `870`, inside the
band `[807.5, 892.5]` for `contentPages = 1`. -/
theorem optimize_idempotent_in_band_witness :
    0.95 * ((1 * 850 : Nat) : ℚ)
        ≤ (weightSum (optimizeContentToFit
            (List.replicate 4 (mkBlock "stat" "") ++ [mkBlock "h3" ""]) 1).blocks : ℚ)
    ∧ (weightSum (optimizeContentToFit
            (List.replicate 4 (mkBlock "stat" "") ++ [mkBlock "h3" ""]) 1).blocks : ℚ)
        ≤ 1.05 * ((1 * 850 : Nat) : ℚ)
    ∧ (optimizeContentToFit (optimizeContentToFit
            (List.replicate 4 (mkBlock "stat" "") ++ [mkBlock "h3" ""]) 1).blocks 1).blocks
        = (optimizeContentToFit
            (List.replicate 4 (mkBlock "stat" "") ++ [mkBlock "h3" ""]) 1).blocks := by
  have hw : weightSum (List.replicate 4 (mkBlock "stat" "") ++ [mkBlock "h3" ""]) = 870 := by
    decide
  have hne : ¬ ((weightSum (List.replicate 4 (mkBlock "stat" "") ++ [mkBlock "h3" ""]) : ℚ)
      > ((1 * 850 : Nat) : ℚ) * 1.1) := by
    rw [hw]; push_cast; norm_num
  have hfb : (optimizeContentToFit
      (List.replicate 4 (mkBlock "stat" "") ++ [mkBlock "h3" ""]) 1).blocks
        = List.replicate 4 (mkBlock "stat" "") ++ [mkBlock "h3" ""] :=
    optimize_blocks_of_not_over _ 1 (by simp [mkBlock]) hne
  have h1 : 0.95 * ((1 * 850 : Nat) : ℚ)
      ≤ (weightSum (optimizeContentToFit
          (List.replicate 4 (mkBlock "stat" "") ++ [mkBlock "h3" ""]) 1).blocks : ℚ) := by
    rw [hfb, hw]; push_cast; norm_num
  have h2 : (weightSum (optimizeContentToFit
          (List.replicate 4 (mkBlock "stat" "") ++ [mkBlock "h3" ""]) 1).blocks : ℚ)
      ≤ 1.05 * ((1 * 850 : Nat) : ℚ) := by
    rw [hfb, hw]; push_cast; norm_num
  exact ⟨h1, h2, optimize_idempotent_in_band _ 1 h1 h2⟩

/-! ## Document model and renderer

The schema's decorative fields (margins, borders, gradients, transforms, …) are
never consulted by the renderer logic the claims are about; the layout model
keeps the fields the renderer and the adapter actually read. -/

/-- Element layout: absolute frame fields, z-index and background color (all
optional, as in the schema). -/
structure BoxLayout where
  x : Option ℚ
  y : Option ℚ
  width : Option ℚ
  height : Option ℚ
  zIndex : Option ℚ
  backgroundColor : Option String
deriving DecidableEq, Repr

/-- An absolute layout at the given frame, no z-index, no background. -/
def absLayout (x y width height : ℚ) : BoxLayout :=
  ⟨some x, some y, some width, some height, none, none⟩

/-- A font descriptor (family and weight, as used by the adapter). -/
structure PDFTextFont where
  family : String
  weight : String
deriving DecidableEq, Repr

/-- A text style (font, size, color, leading). -/
structure PDFTextStyle where
  font : PDFTextFont
  fontSize : ℚ
  color : String
  leading : ℚ
deriving DecidableEq, Repr

/-- Text element payload. -/
structure PDFTextData where
  text : String
  style : PDFTextStyle
deriving DecidableEq, Repr

/-- The element union: Box (owning children), Text, Image, Shape.  Image and
shape payloads are kept as their source reference / shape type; the renderer
dispatch logic under verification never inspects them further. -/
inductive PDFElement where
  | box (elemId : String) (layout : BoxLayout) (children : List PDFElement)
  | text (elemId : String) (layout : BoxLayout) (data : PDFTextData)
  | image (elemId : String) (layout : BoxLayout) (src : String)
  | shape (elemId : String) (layout : BoxLayout) (shapeType : String)

/-- The layout record of an element. -/
def PDFElement.layout : PDFElement → BoxLayout
  | .box _ l _ => l
  | .text _ l _ => l
  | .image _ l _ => l
  | .shape _ l _ => l

/-- The identifier of an element. -/
def PDFElement.elemId : PDFElement → String
  | .box i _ _ => i
  | .text i _ _ => i
  | .image i _ _ => i
  | .shape i _ _ => i

/-- The sort key used by the renderer: `el.layout.zIndex ?? 0`. -/
def zkey (e : PDFElement) : ℚ :=
  e.layout.zIndex.getD 0

/-- Stable insertion by ascending `zkey`: walk past strictly smaller keys, so a
newly considered element lands *before* later elements of equal key.  Together
with `sortByZ` this is extensionally the JS stable
`[...els].sort((a, b) => (a.layout.zIndex ?? 0) - (b.layout.zIndex ?? 0))`. -/
def insertByZ (e : PDFElement) : List PDFElement → List PDFElement
  | [] => [e]
  | f :: rest =>
    if zkey f < zkey e then f :: insertByZ e rest else e :: f :: rest

/-- Stable ascending z-index sort of sibling elements. -/
def sortByZ : List PDFElement → List PDFElement
  | [] => []
  | e :: rest => insertByZ e (sortByZ rest)

/-- Page size description: optional preset name, optional explicit extent. -/
structure PDFPageSize where
  preset : Option String
  width : Option ℚ
  height : Option ℚ
deriving DecidableEq, Repr

/-- A page: identifier, size, flat background color, elements. -/
structure PDFPage where
  pageId : String
  size : PDFPageSize
  backgroundColor : Option String
  elements : List PDFElement

/-- The preset table of `resolvePageSize`. -/
def presetMap (s : String) : Option (ℚ × ℚ) :=
  if s = "A4" then some (595.28, 841.89)
  else if s = "Letter" then some (612, 792)
  else if s = "Legal" then some (612, 1008)
  else none

/-- `resolvePageSize(size, dpi)`: preset dimensions when the preset is present
and recognized, otherwise the explicit extent with A4 defaults.  The `dpi`
argument is accepted and ignored.  (JS truthiness nuance: an empty-string
preset is falsy, but it is also unmapped, so both readings take the fallback.) -/
def resolvePageSize (size : PDFPageSize) (dpi : ℚ) : ℚ × ℚ :=
  match size.preset with
  | some s =>
    match presetMap s with
    | some wh => wh
    | none => (size.width.getD 595.28, size.height.getD 841.89)
  | none => (size.width.getD 595.28, size.height.getD 841.89)

/-! The renderer's dispatch trace: the element identifiers in the order draw
calls are issued.  `renderPDFDocument` sorts each page's top-level elements
with `sortByZ` and dispatches each; `renderBoxElement` does the same,
recursively, for a box's children. -/

/-- Membership is preserved by stable insertion. -/
theorem mem_insertByZ {a e : PDFElement} : ∀ {l : List PDFElement},
    a ∈ insertByZ e l → a = e ∨ a ∈ l := by
  intro l
  induction l with
  | nil => intro h; simpa [insertByZ] using h
  | cons f rest ih =>
    intro h
    simp only [insertByZ] at h
    split at h
    · rcases List.mem_cons.mp h with h | h
      · right; exact List.mem_cons.mpr (Or.inl h)
      · rcases ih h with h | h
        · exact Or.inl h
        · right; exact List.mem_cons.mpr (Or.inr h)
    · rcases List.mem_cons.mp h with h | h
      · exact Or.inl h
      · right; exact h

/-- Membership is preserved by the stable sort. -/
theorem mem_sortByZ {a : PDFElement} : ∀ {l : List PDFElement},
    a ∈ sortByZ l → a ∈ l := by
  intro l
  induction l with
  | nil => intro h; simpa [sortByZ] using h
  | cons e rest ih =>
    intro h
    simp only [sortByZ] at h
    rcases mem_insertByZ h with h | h
    · exact List.mem_cons.mpr (Or.inl h)
    · exact List.mem_cons.mpr (Or.inr (ih h))

/-- The per-element dispatch trace of the renderer: an element announces its
own draw dispatch, and a box recurses into its z-sorted children. -/
def renderElementTrace : PDFElement → List String
  | .text i _ _ => [i]
  | .image i _ _ => [i]
  | .shape i _ _ => [i]
  | .box i _ children =>
    i :: ((sortByZ children).attach.map
      (fun c => renderElementTrace c.1)).flatten
decreasing_by
  have hmem : c.1 ∈ children := mem_sortByZ c.2
  have hlt := List.sizeOf_lt_of_mem hmem
  simp only [PDFElement.box.sizeOf_spec]
  omega

/-- The dispatch trace of one page: background first (not an element
dispatch), then the z-sorted top-level elements. -/
def renderPageTrace (p : PDFPage) : List String :=
  ((sortByZ p.elements).map renderElementTrace).flatten

/-! ## Renderer ordering lemmas -/

/-- Stable insertion is a permutation: it only relocates the inserted element. -/
theorem insertByZ_perm (e : PDFElement) :
    ∀ l : List PDFElement, (insertByZ e l).Perm (e :: l) := by
  intro l
  induction l with
  | nil => simp [insertByZ]
  | cons f rest ih =>
    simp only [insertByZ]
    split
    · exact ((ih.cons f).trans (List.Perm.swap e f rest))
    · exact List.Perm.refl _

/-- The stable sort is a permutation of its input. -/
theorem sortByZ_perm : ∀ l : List PDFElement, (sortByZ l).Perm l := by
  intro l
  induction l with
  | nil => simp [sortByZ]
  | cons e rest ih => exact (insertByZ_perm e (sortByZ rest)).trans (ih.cons e)

/-- Stable insertion preserves sortedness by `zkey`. -/
theorem insertByZ_pairwise (e : PDFElement) :
    ∀ l : List PDFElement, l.Pairwise (fun a b => zkey a ≤ zkey b) →
      (insertByZ e l).Pairwise (fun a b => zkey a ≤ zkey b) := by
  intro l
  induction l with
  | nil => intro _; simp [insertByZ]
  | cons f rest ih =>
    intro hp
    rcases List.pairwise_cons.mp hp with ⟨hf, hrest⟩
    simp only [insertByZ]
    split
    · rename_i hlt
      refine List.pairwise_cons.mpr ⟨?_, ih hrest⟩
      intro x hx
      rcases mem_insertByZ hx with h | h
      · exact h ▸ le_of_lt hlt
      · exact hf x h
    · rename_i hnlt
      have he : zkey e ≤ zkey f := le_of_not_lt hnlt
      refine List.pairwise_cons.mpr ⟨?_, hp⟩
      intro x hx
      rcases List.mem_cons.mp hx with h | h
      · exact h ▸ he
      · exact he.trans (hf x h)

/-- The renderer's sibling order is sorted by ascending z-index. -/
theorem sortByZ_sorted : ∀ l : List PDFElement,
    (sortByZ l).Pairwise (fun a b => zkey a ≤ zkey b) := by
  intro l
  induction l with
  | nil => simp [sortByZ]
  | cons e rest ih => exact insertByZ_pairwise e (sortByZ rest) ih

/-- Inserting an element with a different key leaves a key-class untouched. -/
theorem filter_insertByZ_ne (e : PDFElement) (z : ℚ) (h : zkey e ≠ z) :
    ∀ l : List PDFElement,
      (insertByZ e l).filter (fun f => decide (zkey f = z))
        = l.filter (fun f => decide (zkey f = z)) := by
  intro l
  induction l with
  | nil => simp [insertByZ, h]
  | cons f rest ih =>
    simp only [insertByZ]
    split
    · simp only [List.filter_cons, ih]
    · simp [List.filter_cons, h]

/-- Inserting an element of key `z` into a sorted list puts it at the head of
the `z` key-class: earlier same-key elements are exactly those already placed. -/
theorem filter_insertByZ_eq (e : PDFElement) (z : ℚ) (hz : zkey e = z) :
    ∀ l : List PDFElement, l.Pairwise (fun a b => zkey a ≤ zkey b) →
      (insertByZ e l).filter (fun f => decide (zkey f = z))
        = e :: l.filter (fun f => decide (zkey f = z)) := by
  intro l
  induction l with
  | nil => intro _; simp [insertByZ, hz]
  | cons f rest ih =>
    intro hp
    rcases List.pairwise_cons.mp hp with ⟨_, hrest⟩
    simp only [insertByZ]
    split
    · rename_i hlt
      have hf : zkey f ≠ z := by
        intro hfz
        rw [hz] at hlt
        rw [hfz] at hlt
        exact lt_irrefl z hlt
      simp only [List.filter_cons, decide_eq_true_eq, ih hrest]
      simp [hf]
    · simp [List.filter_cons, hz]

/-- Stability: every z-index class comes out of the sort in its original
document order. -/
theorem sortByZ_filter (z : ℚ) : ∀ l : List PDFElement,
    (sortByZ l).filter (fun f => decide (zkey f = z))
      = l.filter (fun f => decide (zkey f = z)) := by
  intro l
  induction l with
  | nil => simp [sortByZ]
  | cons e rest ih =>
    simp only [sortByZ]
    by_cases he : zkey e = z
    · rw [filter_insertByZ_eq e z he (sortByZ rest) (sortByZ_sorted rest), ih]
      simp [List.filter_cons, he]
    · rw [filter_insertByZ_ne e z he (sortByZ rest), ih]
      simp [List.filter_cons, he]

/-- A text element carrying only a z-index, used for the concrete z-order
scenario of the spec. -/
def zDemoEl (i : String) (z : ℚ) : PDFElement :=
  .text i ⟨none, none, none, none, some z, none⟩
    ⟨"", ⟨⟨"Inter", "normal"⟩, 12, "#000000", 18⟩⟩

/-- C7.  The renderer's per-page (and per-box, the same `sortByZ`) dispatch
order is ascending z-index with ties kept in document order, a deterministic
function of the input: the sorted sibling list is a permutation of the input,
it is sorted by `zIndex ?? 0`, every equal-z-index class keeps its document
order, and the document-order z-indices `[3, 1, 2]` are dispatched as
`[1, 2, 3]`. -/
theorem renderer_z_order_spec :
    (∀ els : List PDFElement, (sortByZ els).Perm els)
    ∧ (∀ els : List PDFElement,
        (sortByZ els).Pairwise (fun a b => zkey a ≤ zkey b))
    ∧ (∀ (els : List PDFElement) (z : ℚ),
        (sortByZ els).filter (fun e => decide (zkey e = z))
          = els.filter (fun e => decide (zkey e = z)))
    ∧ renderPageTrace ⟨"page-1", ⟨some "A4", none, none⟩, none,
        [zDemoEl "a" 3, zDemoEl "b" 1, zDemoEl "c" 2]⟩ = ["b", "c", "a"] := by
  refine ⟨sortByZ_perm, sortByZ_sorted, fun els z => sortByZ_filter z els, ?_⟩
  have h12 : ¬ ((2 : ℚ) < 1) := by norm_num
  have h13 : ¬ ((3 : ℚ) < 1) := by norm_num
  have h23 : ¬ ((3 : ℚ) < 2) := by norm_num
  have h21 : (1 : ℚ) < 2 := by norm_num
  have h31 : (1 : ℚ) < 3 := by norm_num
  have h32 : (2 : ℚ) < 3 := by norm_num
  simp [renderPageTrace, sortByZ, insertByZ, zkey, zDemoEl, PDFElement.layout,
    renderElementTrace, h12, h13, h23, h21, h31, h32]

/-- C8.  `resolvePageSize`: presets map to their fixed point dimensions for
every dpi; an unrecognized or absent preset falls back to the explicit extent
with A4 defaults; and the dpi argument never alters the result. -/
theorem resolvePageSize_spec :
    (∀ (dpi : ℚ) (w h : Option ℚ),
        resolvePageSize ⟨some "A4", w, h⟩ dpi = (595.28, 841.89))
    ∧ (∀ (dpi : ℚ) (w h : Option ℚ),
        resolvePageSize ⟨some "Letter", w, h⟩ dpi = (612, 792))
    ∧ (∀ (dpi : ℚ) (w h : Option ℚ),
        resolvePageSize ⟨some "Legal", w, h⟩ dpi = (612, 1008))
    ∧ (∀ (dpi : ℚ) (s : String) (w h : Option ℚ), presetMap s = none →
        resolvePageSize ⟨some s, w, h⟩ dpi = (w.getD 595.28, h.getD 841.89))
    ∧ (∀ (dpi : ℚ) (w h : Option ℚ),
        resolvePageSize ⟨none, w, h⟩ dpi = (w.getD 595.28, h.getD 841.89))
    ∧ (∀ (s : PDFPageSize) (d1 d2 : ℚ), resolvePageSize s d1 = resolvePageSize s d2) := by
  refine ⟨fun dpi w h => rfl, fun dpi w h => rfl, fun dpi w h => rfl,
    ?_, fun dpi w h => rfl, ?_⟩
  · intro dpi s w h hs
    simp [resolvePageSize, hs]
  · intro s d1 d2
    rfl

/-- Witness for C8 at the unrecognized preset "Tabloid" with explicit extent. -/
theorem resolvePageSize_spec_witness :
    presetMap "Tabloid" = none
    ∧ resolvePageSize ⟨some "Tabloid", some 100, some 200⟩ 300
        = ((some (100 : ℚ)).getD 595.28, (some (200 : ℚ)).getD 841.89) := by
  have hp : presetMap "Tabloid" = none := by rfl
  exact ⟨hp, resolvePageSize_spec.2.2.2.1 300 "Tabloid" (some 100) (some 200) hp⟩

/-! ## Content model adapter (`buildPdfDocumentFromTextora`)

The adapter walks each external page's content blocks with a running vertical
cursor (`cursorY`, starting at 130 below the page heading, `lineHeight = 20`),
emitting absolutely positioned elements. -/

/-- The adapter's bold heading style at a given size (`leading = size * 1.2`). -/
def baseHeadingStyle (size : ℚ) : PDFTextStyle :=
  ⟨⟨"Inter", "bold"⟩, size, "#111827", size * 1.2⟩

/-- The adapter's body style at a given size (`leading = size * 1.5`). -/
def baseBodyStyle (size : ℚ) : PDFTextStyle :=
  ⟨⟨"Inter", "normal"⟩, size, "#1f2933", size * 1.5⟩

/-- An absolute layout with a background color (the stat box). -/
def absLayoutBg (x y width height : ℚ) (bg : String) : BoxLayout :=
  ⟨some x, some y, some width, some height, none, some bg⟩

/-- One step of the adapter's content walk: given the accumulated elements and
the cursor, process one (possibly null) block.  `h2` emits a heading text and
advances the cursor two line-heights; `p` emits a body text and advances three;
`stat` emits a box holding a large value text and a small label text and
advances a fixed 100 units; anything else emits nothing and leaves the cursor
unchanged. -/
def buildContentStep (pageIndex blockIndex : Nat)
    (st : List PDFElement × ℚ) (ob : Option Block) : List PDFElement × ℚ :=
  match ob with
  | none => st
  | some block =>
    let idBase := "p" ++ toString (pageIndex + 1) ++ "-b" ++ toString blockIndex
    if block.type == "h2" then
      (st.1 ++ [PDFElement.text (idBase ++ "-h2") (absLayout 72 st.2 450 30)
          ⟨block.text, baseHeadingStyle 18⟩],
        st.2 + 20 * 2)
    else if block.type == "p" then
      (st.1 ++ [PDFElement.text (idBase ++ "-p") (absLayout 72 st.2 450 60)
          ⟨block.text, baseBodyStyle 12⟩],
        st.2 + 20 * 3)
    else if block.type == "stat" then
      (st.1 ++ [PDFElement.box (idBase ++ "-stat-box")
          (absLayoutBg 72 st.2 200 80 "#f1f5f9")
          [PDFElement.text (idBase ++ "-stat-value")
              (absLayout 82 (st.2 + 12) 180 30) ⟨block.value, baseHeadingStyle 20⟩,
            PDFElement.text (idBase ++ "-stat-label")
              (absLayout 82 (st.2 + 42) 180 20) ⟨block.label, baseBodyStyle 10⟩]],
        st.2 + 100)
    else st

/-- The whole content walk of one external page, starting from the page-title
elements with the cursor at 130. -/
def buildPageContent (pageIndex : Nat) (titleEls : List PDFElement)
    (content : List (Option Block)) : List PDFElement × ℚ :=
  (content.enum).foldl (fun st q => buildContentStep pageIndex q.1 st q.2)
    (titleEls, 130)

/-- An external (Textora) page: optional title and loosely-typed content. -/
structure TextoraPage where
  title : Option String
  content : List (Option Block)

/-- One external page turned into a canonical page: heading text at the fixed
top offset when a title is present, then the content walk. -/
def buildTextoraPage (pageIndex : Nat) (page : TextoraPage) : PDFPage :=
  let titleEls : List PDFElement :=
    match page.title with
    | some t =>
      [PDFElement.text ("page-" ++ toString (pageIndex + 1) ++ "-title")
        (absLayout 72 72 450 40) ⟨t, baseHeadingStyle 24⟩]
    | none => []
  ⟨"page-" ++ toString (pageIndex + 1), ⟨some "A4", none, none⟩, some "#ffffff",
    (buildPageContent pageIndex titleEls page.content).1⟩

/-- The cursor advance contributed by one block of the walk (2, 3 line-heights,
the fixed stat increment, or nothing). -/
def blockAdvance : Option Block → ℚ
  | none => 0
  | some b =>
    if b.type == "h2" then 20 * 2
    else if b.type == "p" then 20 * 3
    else if b.type == "stat" then 100
    else 0

/-- Whether a block of the walk produces an element. -/
def producesElement : Option Block → Bool
  | none => false
  | some b => b.type == "h2" || b.type == "p" || b.type == "stat"

/-- One step adds the block's advance to the cursor and its element (if any). -/
theorem buildContentStep_state (pi bi : Nat) (st : List PDFElement × ℚ)
    (ob : Option Block) :
    (buildContentStep pi bi st ob).2 = st.2 + blockAdvance ob
    ∧ (buildContentStep pi bi st ob).1.length
        = st.1.length + (if producesElement ob then 1 else 0) := by
  match ob with
  | none => simp [buildContentStep, blockAdvance, producesElement]
  | some b =>
    by_cases h2 : b.type == "h2"
    · simp [buildContentStep, blockAdvance, producesElement, h2]
    · by_cases hp : b.type == "p"
      · simp [buildContentStep, blockAdvance, producesElement, h2, hp]
      · by_cases hs : b.type == "stat"
        · simp [buildContentStep, blockAdvance, producesElement, h2, hp, hs]
        · simp [buildContentStep, blockAdvance, producesElement, h2, hp, hs]

/-- The fold's cursor and element count, for any start state and start index. -/
theorem buildContent_fold (pi : Nat) : ∀ (content : List (Option Block))
    (k : Nat) (st : List PDFElement × ℚ),
    ((content.enumFrom k).foldl (fun st q => buildContentStep pi q.1 st q.2) st).2
        = st.2 + (content.map blockAdvance).sum
    ∧ ((content.enumFrom k).foldl (fun st q => buildContentStep pi q.1 st q.2) st).1.length
        = st.1.length + (content.filter producesElement).length := by
  intro content
  induction content with
  | nil => intro k st; simp
  | cons ob rest ih =>
    intro k st
    simp only [List.enumFrom, List.foldl_cons]
    have hstep := buildContentStep_state pi k st ob
    have hih := ih (k + 1) (buildContentStep pi k st ob)
    refine ⟨?_, ?_⟩
    · rw [hih.1, hstep.1]
      simp [add_assoc]
    · rw [hih.2, hstep.2]
      by_cases hpe : producesElement ob <;> simp [hpe, List.filter_cons] <;> omega

/-- C9.  The adapter's per-page walk: the cursor starts at 130 below the
heading; each `h2` advances it exactly two line-heights (40), each `p` exactly
three (60), each `stat` a fixed larger increment (100 > 60); an unrecognized
(or null) block emits no element and leaves the cursor unchanged; and over a
whole page the final cursor is `130` plus the blocks' advances while exactly
the recognized blocks emit one element each. -/
theorem adapter_cursor_walk :
    (∀ (pi bi : Nat) (st : List PDFElement × ℚ) (b : Block), b.type = "h2" →
        (buildContentStep pi bi st (some b)).2 = st.2 + 20 * 2
        ∧ (buildContentStep pi bi st (some b)).1.length = st.1.length + 1)
    ∧ (∀ (pi bi : Nat) (st : List PDFElement × ℚ) (b : Block), b.type = "p" →
        (buildContentStep pi bi st (some b)).2 = st.2 + 20 * 3
        ∧ (buildContentStep pi bi st (some b)).1.length = st.1.length + 1)
    ∧ (∀ (pi bi : Nat) (st : List PDFElement × ℚ) (b : Block), b.type = "stat" →
        (buildContentStep pi bi st (some b)).2 = st.2 + 100
        ∧ (buildContentStep pi bi st (some b)).1.length = st.1.length + 1)
    ∧ ((20 : ℚ) * 2 < 100 ∧ (20 : ℚ) * 3 < 100)
    ∧ (∀ (pi bi : Nat) (st : List PDFElement × ℚ) (b : Block),
        b.type ≠ "h2" → b.type ≠ "p" → b.type ≠ "stat" →
          buildContentStep pi bi st (some b) = st)
    ∧ (∀ (pi bi : Nat) (st : List PDFElement × ℚ),
        buildContentStep pi bi st none = st)
    ∧ (∀ (pi : Nat) (titleEls : List PDFElement) (content : List (Option Block)),
        (buildPageContent pi titleEls content).2
            = 130 + (content.map blockAdvance).sum
        ∧ (buildPageContent pi titleEls content).1.length
            = titleEls.length + (content.filter producesElement).length) := by
  refine ⟨?_, ?_, ?_, by norm_num, ?_, ?_, ?_⟩
  · intro pi bi st b hb
    have h := buildContentStep_state pi bi st (some b)
    simp [blockAdvance, producesElement, hb] at h
    exact h
  · intro pi bi st b hb
    have h := buildContentStep_state pi bi st (some b)
    simp [blockAdvance, producesElement, hb] at h
    exact h
  · intro pi bi st b hb
    have h := buildContentStep_state pi bi st (some b)
    simp [blockAdvance, producesElement, hb] at h
    exact h
  · intro pi bi st b h2 hp hs
    simp [buildContentStep, h2, hp, hs]
  · intro pi bi st
    rfl
  · intro pi titleEls content
    have h := buildContent_fold pi content 0 (titleEls, 130)
    simpa [buildPageContent, List.enum] using h

/-- Witness for C9: one step of each block type from the initial state. -/
theorem adapter_cursor_walk_witness :
    ((mkBlock "h2" "T").type = "h2"
      ∧ (buildContentStep 0 0 ([], 130) (some (mkBlock "h2" "T"))).2 = 130 + 20 * 2)
    ∧ ((mkBlock "p" "T").type = "p"
      ∧ (buildContentStep 0 1 ([], 130) (some (mkBlock "p" "T"))).2 = 130 + 20 * 3)
    ∧ ((mkBlock "stat" "").type = "stat"
      ∧ (buildContentStep 0 2 ([], 130) (some (mkBlock "stat" ""))).2 = 130 + 100)
    ∧ ((mkBlock "table" "").type ≠ "h2" ∧ (mkBlock "table" "").type ≠ "p"
      ∧ (mkBlock "table" "").type ≠ "stat"
      ∧ buildContentStep 0 3 ([], 130) (some (mkBlock "table" "")) = ([], 130)) := by
  have h := adapter_cursor_walk
  refine ⟨⟨rfl, (h.1 0 0 ([], 130) (mkBlock "h2" "T") rfl).1⟩,
    ⟨rfl, (h.2.1 0 1 ([], 130) (mkBlock "p" "T") rfl).1⟩,
    ⟨rfl, (h.2.2.1 0 2 ([], 130) (mkBlock "stat" "") rfl).1⟩,
    ⟨?_, ?_, ?_, h.2.2.2.2.1 0 3 ([], 130) (mkBlock "table" "") ?_ ?_ ?_⟩⟩
  all_goals simp [mkBlock]

/-! ## Trimming-phase lemmas (claim C5)

Throughout, the running `currentWeight` counter is related to the recomputed
weight of the surviving slots, and each removal pass is characterised
extensionally: what survives, in what order, and when each pass stops. -/

/-- The running weight as a rational. -/
def totalWeightQ (bs : List (Option Block)) : ℚ :=
  (totalWeight bs : ℚ)

/-- The surviving blocks of type `s`, in order. -/
def filterOf (s : String) (bs : List (Option Block)) : List Block :=
  (bs.filterMap id).filter (fun b => b.type == s)

/-- Number of blocks of type `s` in a block list. -/
def countType (s : String) (bs : List Block) : Nat :=
  (bs.filter (fun b => b.type == s)).length

/-- Number of paragraphs of weight at most `c` in a block list. -/
def countPle (c : Nat) (bs : List Block) : Nat :=
  (bs.filter (fun b => b.type == "p" && decide (getBlockWeight (some b) ≤ c))).length

@[simp] theorem totalWeightQ_nil : totalWeightQ [] = 0 := rfl

@[simp] theorem totalWeightQ_cons (ob : Option Block) (rest : List (Option Block)) :
    totalWeightQ (ob :: rest) = weightQ ob + totalWeightQ rest := by
  simp [totalWeightQ, totalWeight, weightQ]

@[simp] theorem filterOf_nil (s : String) : filterOf s [] = [] := rfl

theorem filterOf_cons_none (s : String) (rest : List (Option Block)) :
    filterOf s (none :: rest) = filterOf s rest := rfl

theorem filterOf_cons_some (s : String) (b : Block) (rest : List (Option Block)) :
    filterOf s (some b :: rest)
      = if b.type == s then b :: filterOf s rest else filterOf s rest := by
  simp only [filterOf, List.filterMap_cons, id_def, List.filter_cons]

@[simp] theorem weightQ_none : weightQ none = 0 := rfl

@[simp] theorem weightQ_nonneg (ob : Option Block) : 0 ≤ weightQ ob :=
  Nat.cast_nonneg _

/-- Unfolding equation: a matching slot is nulled and the scan breaks once the
counter reaches the bound. -/
theorem removeTypeRevAux_cons_break (t : String) (bound : ℚ) (ob : Option Block)
    (rest : List (Option Block)) (w : ℚ)
    (h1 : slotHasType t ob = true) (h2 : w - weightQ ob ≤ bound) :
    removeTypeRevAux t bound (ob :: rest) w = (none :: rest, w - weightQ ob) := by
  simp [removeTypeRevAux, h1, h2]

/-- Unfolding equation: a matching slot is nulled and the scan continues while
still above the bound. -/
theorem removeTypeRevAux_cons_rm (t : String) (bound : ℚ) (ob : Option Block)
    (rest : List (Option Block)) (w : ℚ)
    (h1 : slotHasType t ob = true) (h2 : ¬ (w - weightQ ob ≤ bound)) :
    removeTypeRevAux t bound (ob :: rest) w
      = (none :: (removeTypeRevAux t bound rest (w - weightQ ob)).1,
         (removeTypeRevAux t bound rest (w - weightQ ob)).2) := by
  simp [removeTypeRevAux, h1, h2]

/-- Unfolding equation: a non-matching slot is kept and skipped. -/
theorem removeTypeRevAux_cons_skip (t : String) (bound : ℚ) (ob : Option Block)
    (rest : List (Option Block)) (w : ℚ)
    (h1 : ¬ (slotHasType t ob = true)) :
    removeTypeRevAux t bound (ob :: rest) w
      = (ob :: (removeTypeRevAux t bound rest w).1,
         (removeTypeRevAux t bound rest w).2) := by
  simp [removeTypeRevAux, h1]

/-- The incremental weight counter tracks removals exactly: new counter plus
old total weight equals old counter plus new total weight. -/
theorem removeTypeRevAux_weight (t : String) (bound : ℚ) :
    ∀ (l : List (Option Block)) (w : ℚ),
      (removeTypeRevAux t bound l w).2 + totalWeightQ l
        = w + totalWeightQ (removeTypeRevAux t bound l w).1 := by
  intro l
  induction l with
  | nil => intro w; simp [removeTypeRevAux]
  | cons ob rest ih =>
    intro w
    by_cases h1 : slotHasType t ob = true
    · by_cases h2 : w - weightQ ob ≤ bound
      · rw [removeTypeRevAux_cons_break t bound ob rest w h1 h2]
        simp only [totalWeightQ_cons, weightQ_none]
        ring
      · rw [removeTypeRevAux_cons_rm t bound ob rest w h1 h2]
        have := ih (w - weightQ ob)
        simp only [totalWeightQ_cons, weightQ_none] at this ⊢
        linarith
    · rw [removeTypeRevAux_cons_skip t bound ob rest w h1]
      have := ih w
      simp only [totalWeightQ_cons] at this ⊢
      linarith

/-- If the scan finishes still above the bound, it nulled every slot of its
type: no `t`-block survives it. -/
theorem removeTypeRevAux_exhausts (t : String) (bound : ℚ) :
    ∀ (l : List (Option Block)) (w : ℚ),
      (removeTypeRevAux t bound l w).2 > bound →
        filterOf t (removeTypeRevAux t bound l w).1 = [] := by
  intro l
  induction l with
  | nil => intro w _; simp [removeTypeRevAux]
  | cons ob rest ih =>
    intro w hgt
    by_cases h1 : slotHasType t ob = true
    · by_cases h2 : w - weightQ ob ≤ bound
      · rw [removeTypeRevAux_cons_break t bound ob rest w h1 h2] at hgt
        simp at hgt
        linarith
      · rw [removeTypeRevAux_cons_rm t bound ob rest w h1 h2] at hgt ⊢
        rw [filterOf_cons_none]
        exact ih _ hgt
    · rw [removeTypeRevAux_cons_skip t bound ob rest w h1] at hgt ⊢
      match ob with
      | none =>
        rw [filterOf_cons_none]
        exact ih _ hgt
      | some b =>
        have hbt : (b.type == t) = false := by
          simpa [slotHasType] using h1
        rw [filterOf_cons_some, if_neg (by simp [hbt])]
        exact ih _ hgt

/-- The scan only removes: the survivors are a sublist of the input. -/
theorem removeTypeRevAux_sublist (t : String) (bound : ℚ) :
    ∀ (l : List (Option Block)) (w : ℚ),
      ((removeTypeRevAux t bound l w).1.filterMap id).Sublist (l.filterMap id) := by
  intro l
  induction l with
  | nil => intro w; simp [removeTypeRevAux]
  | cons ob rest ih =>
    intro w
    by_cases h1 : slotHasType t ob = true
    · by_cases h2 : w - weightQ ob ≤ bound
      · rw [removeTypeRevAux_cons_break t bound ob rest w h1 h2]
        match ob with
        | none => simp
        | some b =>
          simp only [List.filterMap_cons, id_def]
          exact List.sublist_cons_self b _
      · rw [removeTypeRevAux_cons_rm t bound ob rest w h1 h2]
        match ob with
        | none => simpa using ih _
        | some b =>
          simp only [List.filterMap_cons, id_def]
          exact (ih _).trans (List.sublist_cons_self b _)
    · rw [removeTypeRevAux_cons_skip t bound ob rest w h1]
      match ob with
      | none => simpa using ih _
      | some b =>
        simp only [List.filterMap_cons, id_def]
        exact (ih _).cons₂ b

/-- A scan for type `t` leaves every other type-class untouched. -/
theorem removeTypeRevAux_filter_ne (t s : String) (bound : ℚ) (hst : s ≠ t) :
    ∀ (l : List (Option Block)) (w : ℚ),
      filterOf s (removeTypeRevAux t bound l w).1 = filterOf s l := by
  intro l
  induction l with
  | nil => intro w; simp [removeTypeRevAux]
  | cons ob rest ih =>
    intro w
    by_cases h1 : slotHasType t ob = true
    · have hob : ∃ b, ob = some b ∧ b.type = t := by
        match ob with
        | none => simp [slotHasType] at h1
        | some b => exact ⟨b, rfl, by simpa [slotHasType] using h1⟩
      obtain ⟨b, rfl, hbt⟩ := hob
      have hbs : ¬ ((b.type == s) = true) := by
        simp [hbt]
        exact fun h => hst h.symm
      by_cases h2 : w - weightQ (some b) ≤ bound
      · rw [removeTypeRevAux_cons_break t bound (some b) rest w h1 h2,
          filterOf_cons_none, filterOf_cons_some, if_neg hbs]
      · rw [removeTypeRevAux_cons_rm t bound (some b) rest w h1 h2,
          filterOf_cons_none, filterOf_cons_some, if_neg hbs]
        exact ih _
    · rw [removeTypeRevAux_cons_skip t bound ob rest w h1]
      match ob with
      | none =>
        rw [filterOf_cons_none, filterOf_cons_none]
        exact ih _
      | some b =>
        rw [filterOf_cons_some, filterOf_cons_some]
        split
        · rw [ih _]
        · exact ih _

/-- Scanning from the array's end (the head of the reversed list), the
survivors of the scanned type are a final segment of that type-class. -/
theorem removeTypeRevAux_filter_self (t : String) (bound : ℚ) :
    ∀ (l : List (Option Block)) (w : ℚ),
      ∃ dropped,
        filterOf t l = dropped ++ filterOf t (removeTypeRevAux t bound l w).1 := by
  intro l
  induction l with
  | nil => intro w; exact ⟨[], by simp [removeTypeRevAux]⟩
  | cons ob rest ih =>
    intro w
    by_cases h1 : slotHasType t ob = true
    · have hob : ∃ b, ob = some b ∧ b.type = t := by
        match ob with
        | none => simp [slotHasType] at h1
        | some b => exact ⟨b, rfl, by simpa [slotHasType] using h1⟩
      obtain ⟨b, rfl, hbt⟩ := hob
      have hbt2 : (b.type == t) = true := by simp [hbt]
      by_cases h2 : w - weightQ (some b) ≤ bound
      · refine ⟨[b], ?_⟩
        rw [removeTypeRevAux_cons_break t bound (some b) rest w h1 h2,
          filterOf_cons_none, filterOf_cons_some, if_pos hbt2]
        simp
      · obtain ⟨dropped, hd⟩ := ih (w - weightQ (some b))
        refine ⟨b :: dropped, ?_⟩
        rw [removeTypeRevAux_cons_rm t bound (some b) rest w h1 h2,
          filterOf_cons_none, filterOf_cons_some, if_pos hbt2, hd]
        simp
    · rw [removeTypeRevAux_cons_skip t bound ob rest w h1]
      match ob with
      | none =>
        obtain ⟨dropped, hd⟩ := ih w
        exact ⟨dropped, by rw [filterOf_cons_none, filterOf_cons_none, hd]⟩
      | some b =>
        have hbt : ¬ ((b.type == t) = true) := by simpa [slotHasType] using h1
        obtain ⟨dropped, hd⟩ := ih w
        exact ⟨dropped, by
          rw [filterOf_cons_some, if_neg hbt, filterOf_cons_some, if_neg hbt, hd]⟩

/-! ### Lifting the scan lemmas through the reversal. -/

theorem filterOf_reverse (s : String) (l : List (Option Block)) :
    filterOf s l.reverse = (filterOf s l).reverse := by
  simp [filterOf]

theorem totalWeightQ_reverse (l : List (Option Block)) :
    totalWeightQ l.reverse = totalWeightQ l := by
  simp [totalWeightQ, totalWeight, List.sum_reverse]

/-- The counter never increases during a scan. -/
theorem removeTypeRevAux_mono (t : String) (bound : ℚ) :
    ∀ (l : List (Option Block)) (w : ℚ), (removeTypeRevAux t bound l w).2 ≤ w := by
  intro l
  induction l with
  | nil => intro w; simp [removeTypeRevAux]
  | cons ob rest ih =>
    intro w
    by_cases h1 : slotHasType t ob = true
    · by_cases h2 : w - weightQ ob ≤ bound
      · rw [removeTypeRevAux_cons_break t bound ob rest w h1 h2]
        have := weightQ_nonneg ob
        simp only
        linarith
      · rw [removeTypeRevAux_cons_rm t bound ob rest w h1 h2]
        have := ih (w - weightQ ob)
        have := weightQ_nonneg ob
        simp only
        linarith
    · rw [removeTypeRevAux_cons_skip t bound ob rest w h1]
      exact ih w

theorem removeTypePass_weight (t : String) (bound : ℚ) (bs : List (Option Block)) (w : ℚ) :
    (removeTypePass t bound bs w).2 + totalWeightQ bs
      = w + totalWeightQ (removeTypePass t bound bs w).1 := by
  have h := removeTypeRevAux_weight t bound bs.reverse w
  simp only [removeTypePass]
  rw [totalWeightQ_reverse] at h ⊢
  simpa using h

theorem removeTypePass_mono (t : String) (bound : ℚ) (bs : List (Option Block)) (w : ℚ) :
    (removeTypePass t bound bs w).2 ≤ w :=
  removeTypeRevAux_mono t bound bs.reverse w

theorem removeTypePass_exhausts (t : String) (bound : ℚ) (bs : List (Option Block)) (w : ℚ)
    (h : (removeTypePass t bound bs w).2 > bound) :
    filterOf t (removeTypePass t bound bs w).1 = [] := by
  have h2 := removeTypeRevAux_exhausts t bound bs.reverse w h
  simp only [removeTypePass, filterOf_reverse]
  rw [h2]
  rfl

theorem removeTypePass_sublist (t : String) (bound : ℚ) (bs : List (Option Block)) (w : ℚ) :
    ((removeTypePass t bound bs w).1.filterMap id).Sublist (bs.filterMap id) := by
  have h := removeTypeRevAux_sublist t bound bs.reverse w
  simp only [removeTypePass]
  have h2 : (((removeTypeRevAux t bound bs.reverse w).1.filterMap id).reverse).Sublist
      ((bs.reverse.filterMap id).reverse) := h.reverse
  simpa using h2

theorem removeTypePass_filter_ne (t s : String) (bound : ℚ) (hst : s ≠ t)
    (bs : List (Option Block)) (w : ℚ) :
    filterOf s (removeTypePass t bound bs w).1 = filterOf s bs := by
  have h := removeTypeRevAux_filter_ne t s bound hst bs.reverse w
  simp only [removeTypePass, filterOf_reverse]
  rw [h, filterOf_reverse]
  simp

/-- In original document order, the surviving `t`-blocks of a `t`-scan are an
initial segment of the original `t`-class (removal happened from the end). -/
theorem removeTypePass_filter_self (t : String) (bound : ℚ)
    (bs : List (Option Block)) (w : ℚ) :
    ∃ rest, filterOf t (removeTypePass t bound bs w).1 ++ rest = filterOf t bs := by
  obtain ⟨dropped, hd⟩ := removeTypeRevAux_filter_self t bound bs.reverse w
  rw [filterOf_reverse] at hd
  refine ⟨dropped.reverse, ?_⟩
  simp only [removeTypePass, filterOf_reverse]
  have : filterOf t bs = (dropped ++ filterOf t (removeTypeRevAux t bound bs.reverse w).1).reverse := by
    rw [← hd]
    simp
  rw [this]
  simp

/-! ### The priority-removal phase. -/

/-- The weight counter stays in sync through the whole priority phase. -/
theorem removePriorityPhase_weight (bound : ℚ) :
    ∀ (ts : List String) (bs : List (Option Block)) (w : ℚ),
      (removePriorityPhase bound ts bs w).2 + totalWeightQ bs
        = w + totalWeightQ (removePriorityPhase bound ts bs w).1 := by
  intro ts
  induction ts with
  | nil => intro bs w; simp [removePriorityPhase]
  | cons t ts ih =>
    intro bs w
    simp only [removePriorityPhase]
    split
    · simp
    · have h1 := removeTypePass_weight t bound bs w
      have h2 := ih (removeTypePass t bound bs w).1 (removeTypePass t bound bs w).2
      linarith

/-- The weight counter never increases through the priority phase. -/
theorem removePriorityPhase_mono (bound : ℚ) :
    ∀ (ts : List String) (bs : List (Option Block)) (w : ℚ),
      (removePriorityPhase bound ts bs w).2 ≤ w := by
  intro ts
  induction ts with
  | nil => intro bs w; simp [removePriorityPhase]
  | cons t ts ih =>
    intro bs w
    simp only [removePriorityPhase]
    split
    · simp
    · exact (ih _ _).trans (removeTypePass_mono t bound bs w)

/-- The priority phase only removes blocks. -/
theorem removePriorityPhase_sublist (bound : ℚ) :
    ∀ (ts : List String) (bs : List (Option Block)) (w : ℚ),
      ((removePriorityPhase bound ts bs w).1.filterMap id).Sublist (bs.filterMap id) := by
  intro ts
  induction ts with
  | nil => intro bs w; simp [removePriorityPhase]
  | cons t ts ih =>
    intro bs w
    simp only [removePriorityPhase]
    split
    · simp
    · exact (ih _ _).trans (removeTypePass_sublist t bound bs w)

/-- Types outside the priority list survive the priority phase untouched. -/
theorem removePriorityPhase_filter_ne (bound : ℚ) :
    ∀ (ts : List String) (s : String), s ∉ ts →
      ∀ (bs : List (Option Block)) (w : ℚ),
        filterOf s (removePriorityPhase bound ts bs w).1 = filterOf s bs := by
  intro ts
  induction ts with
  | nil => intro s _ bs w; simp [removePriorityPhase]
  | cons t ts ih =>
    intro s hs bs w
    have hst : s ≠ t := fun h => hs (h ▸ List.mem_cons_self t ts)
    have hsts : s ∉ ts := fun h => hs (List.mem_cons_of_mem t h)
    simp only [removePriorityPhase]
    split
    · rfl
    · rw [ih s hsts _ _, removeTypePass_filter_ne t s bound hst bs w]

/-- Every type-class comes out of the priority phase as an initial segment of
what it was. -/
theorem removePriorityPhase_filter_pre (bound : ℚ) :
    ∀ (ts : List String) (s : String) (bs : List (Option Block)) (w : ℚ),
      ∃ rest, filterOf s (removePriorityPhase bound ts bs w).1 ++ rest = filterOf s bs := by
  intro ts
  induction ts with
  | nil => intro s bs w; exact ⟨[], by simp [removePriorityPhase]⟩
  | cons t ts ih =>
    intro s bs w
    simp only [removePriorityPhase]
    split
    · exact ⟨[], by simp⟩
    · obtain ⟨r1, h1⟩ := ih s (removeTypePass t bound bs w).1 (removeTypePass t bound bs w).2
      by_cases hst : s = t
      · subst hst
        obtain ⟨r2, h2⟩ := removeTypePass_filter_self s bound bs w
        exact ⟨r1 ++ r2, by rw [← List.append_assoc, h1, h2]⟩
      · rw [removeTypePass_filter_ne t s bound hst bs w] at h1
        exact ⟨r1, h1⟩

/-- If the priority phase ends still above the bound, every priority type has
been completely removed. -/
theorem removePriorityPhase_exhausts (bound : ℚ) :
    ∀ (ts : List String) (bs : List (Option Block)) (w : ℚ),
      (removePriorityPhase bound ts bs w).2 > bound →
        ∀ t ∈ ts, filterOf t (removePriorityPhase bound ts bs w).1 = [] := by
  intro ts
  induction ts with
  | nil => intro bs w _ t ht; cases ht
  | cons t0 ts ih =>
    intro bs w hgt t ht
    simp only [removePriorityPhase] at hgt ⊢
    split at hgt
    · rename_i hle
      simp at hgt
      linarith
    · rename_i hnle
      rw [if_neg hnle]
      rcases List.mem_cons.mp ht with h | h
      · subst h
        have hw1 : (removeTypePass t bound bs w).2 > bound := by
          have := removePriorityPhase_mono bound ts
            (removeTypePass t bound bs w).1 (removeTypePass t bound bs w).2
          linarith
        have hempty := removeTypePass_exhausts t bound bs w hw1
        obtain ⟨rest, hrest⟩ := removePriorityPhase_filter_pre bound ts t
          (removeTypePass t bound bs w).1 (removeTypePass t bound bs w).2
        rw [hempty] at hrest
        exact List.append_eq_nil.mp hrest |>.1
      · exact ih _ _ hgt t h

/-- If anything at all was removed, the phase started above the bound. -/
theorem removePriorityPhase_decrease_over (bound : ℚ) :
    ∀ (ts : List String) (bs : List (Option Block)) (w : ℚ) (s : String),
      (filterOf s (removePriorityPhase bound ts bs w).1).length
          < (filterOf s bs).length → w > bound := by
  intro ts
  induction ts with
  | nil => intro bs w s h; simp [removePriorityPhase] at h
  | cons t ts ih =>
    intro bs w s h
    simp only [removePriorityPhase] at h
    split at h
    · simp at h
    · rename_i hnle
      exact lt_of_not_le hnle

/-- The fixed priority order: if a later-priority type lost blocks, every
earlier-priority type was already completely removed. -/
theorem removePriorityPhase_order (bound : ℚ) :
    ∀ (ts : List String), ts.Nodup →
      ∀ (bs : List (Option Block)) (w : ℚ) (pre : List String) (t : String)
        (post : List String), ts = pre ++ t :: post →
        (∃ s ∈ post, (filterOf s (removePriorityPhase bound ts bs w).1).length
            < (filterOf s bs).length) →
        filterOf t (removePriorityPhase bound ts bs w).1 = [] := by
  intro ts
  induction ts with
  | nil =>
    intro _ bs w pre t post heq _
    exact absurd heq (by simp)
  | cons t0 ts ih =>
    intro hnd bs w pre t post heq hdec
    obtain ⟨s, hs, hslt⟩ := hdec
    have hnd2 : ts.Nodup := (List.nodup_cons.mp hnd).2
    have ht0 : t0 ∉ ts := (List.nodup_cons.mp hnd).1
    simp only [removePriorityPhase] at hslt ⊢
    split at hslt
    · simp at hslt
    · rename_i hnle
      rw [if_neg hnle]
      match pre, heq with
      | [], heq =>
        simp only [List.nil_append] at heq
        have ht : t0 = t := (List.cons_eq_cons.mp heq).1
        have hpost : ts = post := (List.cons_eq_cons.mp heq).2
        subst ht
        subst hpost
        have hst0 : s ≠ t0 := fun h => ht0 (h ▸ hs)
        have heqpass : filterOf s (removeTypePass t0 bound bs w).1 = filterOf s bs :=
          removeTypePass_filter_ne t0 s bound hst0 bs w
        rw [← heqpass] at hslt
        have hw1 : (removeTypePass t0 bound bs w).2 > bound :=
          removePriorityPhase_decrease_over bound ts _ _ s hslt
        have hempty := removeTypePass_exhausts t0 bound bs w hw1
        obtain ⟨rest, hrest⟩ := removePriorityPhase_filter_pre bound ts t0
          (removeTypePass t0 bound bs w).1 (removeTypePass t0 bound bs w).2
        rw [hempty] at hrest
        exact List.append_eq_nil.mp hrest |>.1
      | t1 :: pre2, heq =>
        simp only [List.cons_append] at heq
        have hts : ts = pre2 ++ t :: post := (List.cons_eq_cons.mp heq).2
        have hst0 : s ≠ t0 := by
          intro h
          apply ht0
          rw [← h]
          rw [hts]
          exact List.mem_append.mpr (Or.inr (List.mem_cons_of_mem t hs))
        have heqpass : filterOf s (removeTypePass t0 bound bs w).1 = filterOf s bs :=
          removeTypePass_filter_ne t0 s bound hst0 bs w
        rw [← heqpass] at hslt
        exact ih hnd2 _ _ pre2 t post hts ⟨s, hs, hslt⟩

/-! ### The paragraph-removal fallback. -/

/-- Insertion keeps exactly the old elements plus the new one. -/
theorem insertParaDesc_perm (p : Nat × Block) :
    ∀ l : List (Nat × Block), (insertParaDesc p l).Perm (p :: l) := by
  intro l
  induction l with
  | nil => simp [insertParaDesc]
  | cons q rest ih =>
    simp only [insertParaDesc]
    split
    · exact (ih.cons q).trans (List.Perm.swap p q rest)
    · exact List.Perm.refl _

/-- The candidate sort is a permutation. -/
theorem sortParasDesc_perm : ∀ l : List (Nat × Block), (sortParasDesc l).Perm l := by
  intro l
  induction l with
  | nil => simp [sortParasDesc]
  | cons p rest ih => exact (insertParaDesc_perm p (sortParasDesc rest)).trans (ih.cons p)

theorem mem_insertParaDesc {a p : Nat × Block} {l : List (Nat × Block)}
    (h : a ∈ insertParaDesc p l) : a = p ∨ a ∈ l :=
  List.mem_cons.mp ((insertParaDesc_perm p l).mem_iff.mp h)

/-- Insertion preserves the heaviest-first order. -/
theorem insertParaDesc_pairwise (p : Nat × Block) :
    ∀ l : List (Nat × Block),
      l.Pairwise (fun a b => getBlockWeight (some b.2) ≤ getBlockWeight (some a.2)) →
      (insertParaDesc p l).Pairwise
        (fun a b => getBlockWeight (some b.2) ≤ getBlockWeight (some a.2)) := by
  intro l
  induction l with
  | nil => intro _; simp [insertParaDesc]
  | cons q rest ih =>
    intro hp
    rcases List.pairwise_cons.mp hp with ⟨hq, hrest⟩
    simp only [insertParaDesc]
    split
    · rename_i hgt
      refine List.pairwise_cons.mpr ⟨?_, ih hrest⟩
      intro x hx
      rcases mem_insertParaDesc hx with h | h
      · exact h ▸ le_of_lt hgt
      · exact hq x h
    · rename_i hngt
      have hle : getBlockWeight (some q.2) ≤ getBlockWeight (some p.2) := le_of_not_lt hngt
      refine List.pairwise_cons.mpr ⟨?_, hp⟩
      intro x hx
      rcases List.mem_cons.mp hx with h | h
      · exact h ▸ hle
      · exact (hq x h).trans hle

/-- The sorted candidates are heaviest-first. -/
theorem sortParasDesc_pairwise : ∀ l : List (Nat × Block),
    (sortParasDesc l).Pairwise
      (fun a b => getBlockWeight (some b.2) ≤ getBlockWeight (some a.2)) := by
  intro l
  induction l with
  | nil => simp [sortParasDesc]
  | cons p rest ih => exact insertParaDesc_pairwise p (sortParasDesc rest) ih

/-- The unsorted indexed paragraph candidates (before the stable sort). -/
def enumParasFrom (k : Nat) (bs : List (Option Block)) : List (Nat × Block) :=
  (bs.enumFrom k).filterMap (fun q =>
    match q.2 with
    | some b => if b.type == "p" then some (q.1, b) else none
    | none => none)

theorem paragraphCandidates_eq (bs : List (Option Block)) :
    paragraphCandidates bs = sortParasDesc (enumParasFrom 0 bs) := by
  simp [paragraphCandidates, enumParasFrom, List.enum]

/-- Every unsorted candidate points at a live paragraph slot. -/
theorem enumParasFrom_valid : ∀ (bs : List (Option Block)) (k : Nat),
    ∀ p ∈ enumParasFrom k bs,
      (∃ j, p.1 = k + j ∧ bs.get? j = some (some p.2)) ∧ p.2.type = "p" := by
  intro bs
  induction bs with
  | nil => intro k p hp; simp [enumParasFrom] at hp
  | cons ob rest ih =>
    intro k p hp
    simp only [enumParasFrom, List.enumFrom, List.filterMap_cons] at hp
    match ob with
    | none =>
      obtain ⟨⟨j, hj, hget⟩, hty⟩ := ih (k + 1) p hp
      exact ⟨⟨j + 1, by omega, by simpa using hget⟩, hty⟩
    | some b =>
      by_cases hbt : b.type == "p"
      · simp only [hbt, if_true] at hp
        rcases List.mem_cons.mp hp with h | h
        · subst h
          exact ⟨⟨0, by omega, by simp⟩, by simpa using hbt⟩
        · obtain ⟨⟨j, hj, hget⟩, hty⟩ := ih (k + 1) p h
          exact ⟨⟨j + 1, by omega, by simpa using hget⟩, hty⟩
      · simp only [hbt, if_false, Bool.false_eq_true] at hp
        obtain ⟨⟨j, hj, hget⟩, hty⟩ := ih (k + 1) p hp
        exact ⟨⟨j + 1, by omega, by simpa using hget⟩, hty⟩

/-- The unsorted candidates list exactly the surviving paragraphs, in order. -/
theorem enumParasFrom_map_snd : ∀ (bs : List (Option Block)) (k : Nat),
    (enumParasFrom k bs).map (fun p => p.2) = filterOf "p" bs := by
  intro bs
  induction bs with
  | nil => intro k; simp [enumParasFrom]
  | cons ob rest ih =>
    intro k
    match ob with
    | none =>
      rw [filterOf_cons_none, ← ih (k + 1)]
      simp [enumParasFrom, List.enumFrom]
    | some b =>
      rw [filterOf_cons_some]
      by_cases hbt : b.type == "p"
      · rw [if_pos hbt, ← ih (k + 1)]
        have hbt2 : b.type = "p" := by simpa using hbt
        simp [enumParasFrom, List.enumFrom, List.filterMap_cons, hbt2]
      · rw [if_neg hbt, ← ih (k + 1)]
        have hbt2 : ¬ (b.type = "p") := by simpa using hbt
        simp [enumParasFrom, List.enumFrom, List.filterMap_cons, hbt2]

/-- The unsorted candidates carry strictly increasing (hence distinct) indices. -/
theorem enumParasFrom_indices : ∀ (bs : List (Option Block)) (k : Nat),
    (enumParasFrom k bs).Pairwise (fun a b => a.1 < b.1) := by
  intro bs
  induction bs with
  | nil => intro k; simp [enumParasFrom]
  | cons ob rest ih =>
    intro k
    match ob with
    | none =>
      have h : enumParasFrom k (none :: rest) = enumParasFrom (k + 1) rest := by
        simp [enumParasFrom, List.enumFrom]
      rw [h]
      exact ih (k + 1)
    | some b =>
      by_cases hbt : b.type == "p"
      · have hbt2 : b.type = "p" := by simpa using hbt
        have h : enumParasFrom k (some b :: rest)
            = (k, b) :: enumParasFrom (k + 1) rest := by
          simp [enumParasFrom, List.enumFrom, List.filterMap_cons, hbt2]
        rw [h]
        refine List.pairwise_cons.mpr ⟨?_, ih (k + 1)⟩
        intro x hx
        obtain ⟨⟨j, hj, _⟩, _⟩ := enumParasFrom_valid rest (k + 1) x hx
        simp only
        omega
      · have hbt2 : ¬ (b.type = "p") := by simpa using hbt
        have h : enumParasFrom k (some b :: rest) = enumParasFrom (k + 1) rest := by
          simp [enumParasFrom, List.enumFrom, List.filterMap_cons, hbt2]
        rw [h]
        exact ih (k + 1)

/-! ### Nulling one slot of the array. -/

theorem get_set_none_ne : ∀ (bs : List (Option Block)) (i j : Nat), i ≠ j →
    (bs.set i none).get? j = bs.get? j := by
  intro bs
  induction bs with
  | nil => intro i j _; simp
  | cons ob rest ih =>
    intro i j hij
    match i, j with
    | 0, 0 => exact absurd rfl hij
    | 0, j + 1 => simp [List.set]
    | i + 1, 0 => simp [List.set]
    | i + 1, j + 1 =>
      simp only [List.set, List.get?_cons_succ]
      exact ih i j (fun h => hij (by omega))

theorem totalWeightQ_set : ∀ (bs : List (Option Block)) (i : Nat) (ob0 : Option Block),
    bs.get? i = some ob0 →
    totalWeightQ (bs.set i none) = totalWeightQ bs - weightQ ob0 := by
  intro bs
  induction bs with
  | nil => intro i ob0 h; simp at h
  | cons ob rest ih =>
    intro i ob0 h
    match i with
    | 0 =>
      simp only [List.get?_cons_zero, Option.some_inj] at h
      subst h
      simp only [List.set, totalWeightQ_cons, weightQ_none]
      ring
    | i + 1 =>
      simp only [List.get?_cons_succ] at h
      simp only [List.set, totalWeightQ_cons, ih i ob0 h]
      ring

theorem filterOf_set_ne : ∀ (bs : List (Option Block)) (i : Nat) (b : Block) (s : String),
    bs.get? i = some (some b) → ¬ (b.type = s) →
    filterOf s (bs.set i none) = filterOf s bs := by
  intro bs
  induction bs with
  | nil => intro i b s h _; simp at h
  | cons ob rest ih =>
    intro i b s h hbs
    match i with
    | 0 =>
      simp only [List.get?_cons_zero, Option.some_inj] at h
      subst h
      simp only [List.set, filterOf_cons_none, filterOf_cons_some]
      rw [if_neg (by simpa using hbs)]
    | i + 1 =>
      simp only [List.get?_cons_succ] at h
      match ob with
      | none =>
        simp only [List.set, filterOf_cons_none]
        exact ih i b s h hbs
      | some a =>
        simp only [List.set, filterOf_cons_some]
        rw [ih i b s h hbs]

theorem filterMap_set_none_sublist : ∀ (bs : List (Option Block)) (i : Nat),
    ((bs.set i none).filterMap id).Sublist (bs.filterMap id) := by
  intro bs
  induction bs with
  | nil => intro i; simp
  | cons ob rest ih =>
    intro i
    match i with
    | 0 =>
      match ob with
      | none => simp [List.set]
      | some b =>
        simp only [List.set, List.filterMap_cons, id_def]
        exact List.sublist_cons_self b _
    | i + 1 =>
      match ob with
      | none =>
        simpa [List.set] using ih i
      | some b =>
        simp only [List.set, List.filterMap_cons, id_def]
        exact (ih i).cons₂ b

theorem mem_filterOf_of_get : ∀ (bs : List (Option Block)) (j : Nat) (b : Block),
    bs.get? j = some (some b) → b.type = "p" → b ∈ filterOf "p" bs := by
  intro bs
  induction bs with
  | nil => intro j b h _; simp at h
  | cons ob rest ih =>
    intro j b h hb
    match j with
    | 0 =>
      simp only [List.get?_cons_zero, Option.some_inj] at h
      subst h
      rw [filterOf_cons_some, if_pos (by simpa using hb)]
      exact List.mem_cons_self b _
    | j + 1 =>
      simp only [List.get?_cons_succ] at h
      match ob with
      | none =>
        rw [filterOf_cons_none]
        exact ih j b h hb
      | some a =>
        rw [filterOf_cons_some]
        split
        · exact List.mem_cons_of_mem a (ih j b h hb)
        · exact ih j b h hb

/-- Nulling a live paragraph slot erases exactly one occurrence of that block
from the paragraph class (as a multiset). -/
theorem parasOf_set_erase : ∀ (bs : List (Option Block)) (i : Nat) (b : Block),
    bs.get? i = some (some b) → b.type = "p" →
    (↑(filterOf "p" (bs.set i none)) : Multiset Block)
      = (↑(filterOf "p" bs) : Multiset Block).erase b := by
  intro bs
  induction bs with
  | nil => intro i b h _; simp at h
  | cons ob rest ih =>
    intro i b h hb
    match i with
    | 0 =>
      simp only [List.get?_cons_zero, Option.some_inj] at h
      subst h
      rw [List.set]
      rw [filterOf_cons_none, filterOf_cons_some, if_pos (by simpa using hb)]
      simp [Multiset.erase_cons_head]
    | i + 1 =>
      simp only [List.get?_cons_succ] at h
      match ob with
      | none =>
        rw [List.set, filterOf_cons_none, filterOf_cons_none]
        exact ih i b h hb
      | some a =>
        rw [List.set, filterOf_cons_some, filterOf_cons_some]
        split
        · have hmem : b ∈ filterOf "p" rest := mem_filterOf_of_get rest i b h hb
          by_cases hab : a = b
          · subst hab
            simp only [← Multiset.cons_coe, Multiset.erase_cons_head]
            rw [ih i a h hb]
            exact Multiset.cons_erase (by exact_mod_cast hmem)
          · simp only [← Multiset.cons_coe]
            rw [ih i b h hb, Multiset.erase_cons_tail _ hab]
        · exact ih i b h hb

theorem removeParasLoop_cons_stop (bound : ℚ) (p : Nat × Block) (ps : List (Nat × Block))
    (bs : List (Option Block)) (w : ℚ) (hle : w ≤ bound) :
    removeParasLoop bound (p :: ps) bs w = (bs, w) := by
  simp [removeParasLoop, hle]

theorem removeParasLoop_cons_rm (bound : ℚ) (p : Nat × Block) (ps : List (Nat × Block))
    (bs : List (Option Block)) (w : ℚ) (hnle : ¬ (w ≤ bound)) :
    removeParasLoop bound (p :: ps) bs w
      = removeParasLoop bound ps (bs.set p.1 none) (w - weightQ (some p.2)) := by
  simp [removeParasLoop, hnle]

/-- The paragraph-removal loop removes a prefix of its (sorted) candidate list:
the surviving paragraphs are exactly the unprocessed candidates, the counter
stays in sync, the loop stops at the bound or exhausts the candidates, only
removals happen, and every other type-class is untouched. -/
theorem removeParasLoop_spec (bound : ℚ) :
    ∀ (ps : List (Nat × Block)) (bs : List (Option Block)) (w : ℚ),
      (∀ p ∈ ps, bs.get? p.1 = some (some p.2) ∧ p.2.type = "p") →
      ps.Pairwise (fun a b => a.1 ≠ b.1) →
      w = totalWeightQ bs →
      (↑(filterOf "p" bs) : Multiset Block) = ↑(ps.map (fun p => p.2)) →
      ∃ k,
        (↑(filterOf "p" (removeParasLoop bound ps bs w).1) : Multiset Block)
            = ↑((ps.drop k).map (fun p => p.2))
        ∧ (removeParasLoop bound ps bs w).2
            = totalWeightQ (removeParasLoop bound ps bs w).1
        ∧ ((removeParasLoop bound ps bs w).2 ≤ bound ∨ k = ps.length)
        ∧ ((removeParasLoop bound ps bs w).1.filterMap id).Sublist (bs.filterMap id)
        ∧ (∀ s, ¬ (s = "p") →
            filterOf s (removeParasLoop bound ps bs w).1 = filterOf s bs) := by
  intro ps
  induction ps with
  | nil =>
    intro bs w hvalid hpw hw hms
    refine ⟨0, ?_, ?_, Or.inr rfl, List.Sublist.refl _, fun s _ => rfl⟩
    · simpa [removeParasLoop] using hms
    · simpa [removeParasLoop] using hw
  | cons p ps2 ih =>
    intro bs w hvalid hpw hw hms
    by_cases hle : w ≤ bound
    · rw [removeParasLoop_cons_stop bound p ps2 bs w hle]
      exact ⟨0, by simpa using hms, hw, Or.inl hle, List.Sublist.refl _, fun s _ => rfl⟩
    · rw [removeParasLoop_cons_rm bound p ps2 bs w hle]
      obtain ⟨hget, hty⟩ := hvalid p (List.mem_cons_self p ps2)
      rcases List.pairwise_cons.mp hpw with ⟨hphead, hptail⟩
      have hvalid2 : ∀ q ∈ ps2,
          (bs.set p.1 none).get? q.1 = some (some q.2) ∧ q.2.type = "p" := by
        intro q hq
        obtain ⟨hg, ht⟩ := hvalid q (List.mem_cons_of_mem p hq)
        exact ⟨by rw [get_set_none_ne bs p.1 q.1 (hphead q hq)]; exact hg, ht⟩
      have hw2 : w - weightQ (some p.2) = totalWeightQ (bs.set p.1 none) := by
        rw [totalWeightQ_set bs p.1 (some p.2) hget, hw]
      have hms2 : (↑(filterOf "p" (bs.set p.1 none)) : Multiset Block)
          = ↑(ps2.map (fun q => q.2)) := by
        rw [parasOf_set_erase bs p.1 p.2 hget hty, hms]
        simp only [List.map_cons, ← Multiset.cons_coe, Multiset.erase_cons_head]
      obtain ⟨k2, hm, hwq, hstop, hsub, hflt⟩ :=
        ih (bs.set p.1 none) (w - weightQ (some p.2)) hvalid2 hptail hw2 hms2
      refine ⟨k2 + 1, by simpa using hm, hwq, ?_, ?_, ?_⟩
      · rcases hstop with h | h
        · exact Or.inl h
        · exact Or.inr (by simp [h])
      · exact hsub.trans (filterMap_set_none_sublist bs p.1)
      · intro s hs
        rw [hflt s hs, filterOf_set_ne bs p.1 p.2 s hget
          (by rw [hty]; exact fun hc => hs hc.symm)]

/-! ### Assembling the two trimming phases. -/

theorem filterOf_map_some (s : String) (l : List Block) :
    filterOf s (l.map some) = l.filter (fun b => b.type == s) := by
  simp only [filterOf, filterMap_id_map_some]

theorem totalWeight_eq_weightSum_filterMap : ∀ l : List (Option Block),
    totalWeight l = weightSum (l.filterMap id) := by
  intro l
  induction l with
  | nil => rfl
  | cons ob rest ih =>
    match ob with
    | none => simpa [totalWeight, weightSum, getBlockWeight] using ih
    | some b =>
      simp only [totalWeight, weightSum, List.filterMap_cons, id_def, List.map_cons,
        List.sum_cons] at ih ⊢
      omega

theorem totalWeightQ_eq_weightSum (l : List (Option Block)) :
    totalWeightQ l = ((weightSum (l.filterMap id) : Nat) : ℚ) := by
  rw [totalWeightQ, totalWeight_eq_weightSum_filterMap]

/-- The trim phase applied to the weight-synced initial state (abbreviation for
the call site inside `trimmedArray`). -/
def trimResult (allBlocks : List Block) (contentPages : Nat) :
    List (Option Block) × ℚ :=
  trimPhase (contentPages * 850) (allBlocks.map some)
    ((totalWeight (allBlocks.map some) : ℚ))

theorem removalPriority_nodup : removalPriority.Nodup := by decide

theorem removalPriority_ne_p : ∀ t ∈ removalPriority, ¬ (t = "p") := by decide

theorem p_not_mem_removalPriority : "p" ∉ removalPriority := by decide

/-- Length of a filter is invariant under coercion-equal (permuted) lists. -/
theorem filter_length_of_coe_eq {l m : List Block} (q : Block → Bool)
    (h : (↑l : Multiset Block) = ↑m) :
    (l.filter q).length = (m.filter q).length := by
  have hp : l.Perm m := Multiset.coe_eq_coe.mp h
  rw [← l.countP_eq_length_filter, ← m.countP_eq_length_filter]
  exact hp.countP_eq q

/-- Characterisation of the paragraph-fallback stage over an arbitrary
priority-phase result `r` whose counter is in sync. -/
theorem paraStage_spec (bound : ℚ) (r tp : List (Option Block) × ℚ)
    (hr2 : r.2 = totalWeightQ r.1)
    (htp : tp = if r.2 > bound then
        removeParasLoop bound (paragraphCandidates r.1) r.1 r.2 else r) :
    (tp.1.filterMap id).Sublist (r.1.filterMap id)
    ∧ tp.2 = totalWeightQ tp.1
    ∧ (tp.2 ≤ bound ∨ (filterOf "p" tp.1 = [] ∧ r.2 > bound))
    ∧ (∀ s, ¬ (s = "p") → filterOf s tp.1 = filterOf s r.1)
    ∧ ((filterOf "p" tp.1).length < (filterOf "p" r.1).length → r.2 > bound)
    ∧ (∀ c : Nat, (∃ q ∈ filterOf "p" tp.1, c < getBlockWeight (some q)) →
        ((filterOf "p" tp.1).filter
            (fun b => decide (getBlockWeight (some b) ≤ c))).length
          = ((filterOf "p" r.1).filter
              (fun b => decide (getBlockWeight (some b) ≤ c))).length) := by
  by_cases hbr : r.2 > bound
  · rw [if_pos hbr] at htp
    -- the fallback runs; establish the loop's preconditions
    have hcands := paragraphCandidates_eq r.1
    have hperm := sortParasDesc_perm (enumParasFrom 0 r.1)
    have hvalid : ∀ p ∈ paragraphCandidates r.1,
        r.1.get? p.1 = some (some p.2) ∧ p.2.type = "p" := by
      intro p hp
      rw [hcands] at hp
      obtain ⟨⟨j, hj, hget⟩, hty⟩ :=
        enumParasFrom_valid r.1 0 p (hperm.mem_iff.mp hp)
      have hpj : p.1 = j := by omega
      exact ⟨hpj ▸ hget, hty⟩
    have hpw : (paragraphCandidates r.1).Pairwise (fun a b => a.1 ≠ b.1) := by
      have hlt := enumParasFrom_indices r.1 0
      have hne : (enumParasFrom 0 r.1).Pairwise (fun a b => a.1 ≠ b.1) :=
        hlt.imp (fun h => Nat.ne_of_lt h)
      rw [hcands]
      exact (List.Perm.pairwise_iff (fun h => Ne.symm h) hperm).mpr hne
    have hms : (↑(filterOf "p" r.1) : Multiset Block)
        = ↑((paragraphCandidates r.1).map (fun p => p.2)) := by
      rw [hcands, ← enumParasFrom_map_snd r.1 0]
      exact (Multiset.coe_eq_coe.mpr (hperm.map (fun p => p.2))).symm
    obtain ⟨k, hm, hwq, hstop, hsub, hflt⟩ :=
      removeParasLoop_spec bound (paragraphCandidates r.1) r.1 r.2 hvalid hpw hr2 hms
    rw [← htp] at hm hwq hstop hsub hflt
    refine ⟨hsub, hwq, ?_, hflt, fun _ => hbr, ?_⟩
    · rcases hstop with h | h
      · exact Or.inl h
      · refine Or.inr ⟨?_, hbr⟩
        have hnil : ((paragraphCandidates r.1).drop k).map (fun p => p.2) = [] := by
          rw [h, List.drop_length]
          rfl
        rw [hnil] at hm
        exact (Multiset.coe_eq_zero _).mp (by simpa using hm)
    · rintro c ⟨q, hq, hqc⟩
      have hqdrop : q ∈ ((paragraphCandidates r.1).drop k).map (fun p => p.2) :=
        (Multiset.coe_eq_coe.mp hm).mem_iff.mp hq
      obtain ⟨y0, hy0, hy0q⟩ := List.mem_map.mp hqdrop
      have hsorted : (paragraphCandidates r.1).Pairwise
          (fun a b => getBlockWeight (some b.2) ≤ getBlockWeight (some a.2)) := by
        rw [hcands]
        exact sortParasDesc_pairwise _
      have hsplitc := (List.take_append_drop k (paragraphCandidates r.1)).symm
      have hcross : ∀ x ∈ (paragraphCandidates r.1).take k,
          ∀ y ∈ (paragraphCandidates r.1).drop k,
            getBlockWeight (some y.2) ≤ getBlockWeight (some x.2) :=
        (List.pairwise_append.mp (hsplitc ▸ hsorted)).2.2
      have htake0 : (((paragraphCandidates r.1).take k).map (fun p => p.2)).filter
          (fun b => decide (getBlockWeight (some b) ≤ c)) = [] := by
        rw [List.filter_eq_nil_iff]
        rintro b hb
        obtain ⟨x, hx, hxb⟩ := List.mem_map.mp hb
        have hxy := hcross x hx y0 hy0
        rw [hxb, hy0q] at hxy
        simp only [decide_eq_true_eq]
        omega
      have h1 : ((filterOf "p" tp.1).filter
            (fun b => decide (getBlockWeight (some b) ≤ c))).length
          = ((((paragraphCandidates r.1).drop k).map (fun p => p.2)).filter
              (fun b => decide (getBlockWeight (some b) ≤ c))).length :=
        filter_length_of_coe_eq _ hm
      have h4 : ((filterOf "p" r.1).filter
            (fun b => decide (getBlockWeight (some b) ≤ c))).length
          = (((paragraphCandidates r.1).map (fun p => p.2)).filter
              (fun b => decide (getBlockWeight (some b) ≤ c))).length :=
        filter_length_of_coe_eq _ hms
      have h3 : (((paragraphCandidates r.1).map (fun p => p.2)).filter
            (fun b => decide (getBlockWeight (some b) ≤ c))).length
          = ((((paragraphCandidates r.1).drop k).map (fun p => p.2)).filter
              (fun b => decide (getBlockWeight (some b) ≤ c))).length := by
        conv_lhs => rw [hsplitc]
        rw [List.map_append, List.filter_append, List.length_append, htake0]
        simp
      rw [h1, ← h3, ← h4]
  · rw [if_neg hbr] at htp
    subst htp
    exact ⟨List.Sublist.refl _, hr2, Or.inl (le_of_not_lt hbr),
      fun s _ => rfl, fun h => absurd h (lt_irrefl _), fun c _ => rfl⟩

/-- Full characterisation of the trimming phase: only removals; the counter
ends in sync; it stops within 105% of capacity or with every removable type
exhausted; each priority class survives as an initial segment; a later-priority
removal implies every earlier class was emptied; a paragraph removal implies
all priority classes were emptied; and removed paragraphs are never lighter
than surviving ones. -/
theorem trimResult_spec (allBlocks : List Block) (n : Nat) :
    ((trimResult allBlocks n).1.filterMap id).Sublist allBlocks
    ∧ (trimResult allBlocks n).2 = totalWeightQ (trimResult allBlocks n).1
    ∧ ((trimResult allBlocks n).2 ≤ ((n * 850 : Nat) : ℚ) * 1.05
        ∨ ∀ t ∈ ("p" :: removalPriority), filterOf t (trimResult allBlocks n).1 = [])
    ∧ (∀ t, ¬ (t = "p") → ∃ rest,
        filterOf t (trimResult allBlocks n).1 ++ rest
          = allBlocks.filter (fun b => b.type == t))
    ∧ (∀ pre t post, removalPriority = pre ++ t :: post →
        (∃ s ∈ post, (filterOf s (trimResult allBlocks n).1).length
            < (allBlocks.filter (fun b => b.type == s)).length) →
        filterOf t (trimResult allBlocks n).1 = [])
    ∧ ((filterOf "p" (trimResult allBlocks n).1).length
          < (allBlocks.filter (fun b => b.type == "p")).length →
        ∀ t ∈ removalPriority, filterOf t (trimResult allBlocks n).1 = [])
    ∧ (∀ c : Nat, (∃ q ∈ filterOf "p" (trimResult allBlocks n).1,
          c < getBlockWeight (some q)) →
        ((filterOf "p" (trimResult allBlocks n).1).filter
            (fun b => decide (getBlockWeight (some b) ≤ c))).length
          = ((allBlocks.filter (fun b => b.type == "p")).filter
              (fun b => decide (getBlockWeight (some b) ≤ c))).length) := by
  have hbs0fm : (allBlocks.map some).filterMap id = allBlocks :=
    filterMap_id_map_some allBlocks
  have hbs0f : ∀ t, filterOf t (allBlocks.map some)
      = allBlocks.filter (fun b => b.type == t) :=
    fun t => filterOf_map_some t allBlocks
  have hr2 : (removePriorityPhase (((n * 850 : Nat) : ℚ) * 1.05) removalPriority
      (allBlocks.map some) ((totalWeight (allBlocks.map some) : ℚ))).2
        = totalWeightQ (removePriorityPhase (((n * 850 : Nat) : ℚ) * 1.05)
            removalPriority (allBlocks.map some)
            ((totalWeight (allBlocks.map some) : ℚ))).1 := by
    have h := removePriorityPhase_weight (((n * 850 : Nat) : ℚ) * 1.05) removalPriority
      (allBlocks.map some) ((totalWeight (allBlocks.map some) : ℚ))
    have hw0 : ((totalWeight (allBlocks.map some) : Nat) : ℚ)
        = totalWeightQ (allBlocks.map some) := rfl
    rw [← hw0] at h
    linarith [h]
  have htp : trimResult allBlocks n
      = if (removePriorityPhase (((n * 850 : Nat) : ℚ) * 1.05) removalPriority
            (allBlocks.map some) ((totalWeight (allBlocks.map some) : ℚ))).2
          > ((n * 850 : Nat) : ℚ) * 1.05 then
          removeParasLoop (((n * 850 : Nat) : ℚ) * 1.05)
            (paragraphCandidates (removePriorityPhase (((n * 850 : Nat) : ℚ) * 1.05)
              removalPriority (allBlocks.map some)
              ((totalWeight (allBlocks.map some) : ℚ))).1)
            (removePriorityPhase (((n * 850 : Nat) : ℚ) * 1.05) removalPriority
              (allBlocks.map some) ((totalWeight (allBlocks.map some) : ℚ))).1
            (removePriorityPhase (((n * 850 : Nat) : ℚ) * 1.05) removalPriority
              (allBlocks.map some) ((totalWeight (allBlocks.map some) : ℚ))).2
        else removePriorityPhase (((n * 850 : Nat) : ℚ) * 1.05) removalPriority
          (allBlocks.map some) ((totalWeight (allBlocks.map some) : ℚ)) := rfl
  obtain ⟨psub, pwq, pstop, pflt, pdec, pcnt⟩ :=
    paraStage_spec (((n * 850 : Nat) : ℚ) * 1.05)
      (removePriorityPhase (((n * 850 : Nat) : ℚ) * 1.05) removalPriority
        (allBlocks.map some) ((totalWeight (allBlocks.map some) : ℚ)))
      (trimResult allBlocks n) hr2 htp
  have hprio_ne_p : ∀ t ∈ removalPriority, ¬ (t = "p") := removalPriority_ne_p
  have hppre := removePriorityPhase_filter_pre (((n * 850 : Nat) : ℚ) * 1.05)
    removalPriority
  have hpfix : filterOf "p" (removePriorityPhase (((n * 850 : Nat) : ℚ) * 1.05)
      removalPriority (allBlocks.map some) ((totalWeight (allBlocks.map some) : ℚ))).1
        = allBlocks.filter (fun b => b.type == "p") := by
    rw [removePriorityPhase_filter_ne (((n * 850 : Nat) : ℚ) * 1.05) removalPriority "p"
      p_not_mem_removalPriority (allBlocks.map some)
      ((totalWeight (allBlocks.map some) : ℚ)), hbs0f]
  refine ⟨?_, pwq, ?_, ?_, ?_, ?_, ?_⟩
  · have h := psub.trans (removePriorityPhase_sublist _ removalPriority _ _)
    rw [hbs0fm] at h
    exact h
  · rcases pstop with h | ⟨hpempty, hover⟩
    · exact Or.inl h
    · refine Or.inr ?_
      intro t ht
      rcases List.mem_cons.mp ht with h2 | h2
      · subst h2
        exact hpempty
      · rw [pflt t (hprio_ne_p t h2)]
        exact removePriorityPhase_exhausts _ removalPriority _ _ hover t h2
  · intro t htp2
    obtain ⟨rest, hrest⟩ := hppre t (allBlocks.map some)
      ((totalWeight (allBlocks.map some) : ℚ))
    exact ⟨rest, by rw [pflt t htp2, hrest, hbs0f t]⟩
  · rintro pre t post hsplit ⟨s, hs, hslen⟩
    have hsprio : s ∈ removalPriority := by
      rw [hsplit]
      exact List.mem_append.mpr (Or.inr (List.mem_cons_of_mem t hs))
    have htprio : t ∈ removalPriority := by
      rw [hsplit]
      exact List.mem_append.mpr (Or.inr (List.mem_cons_self t post))
    rw [pflt s (hprio_ne_p s hsprio), ← hbs0f s] at hslen
    rw [pflt t (hprio_ne_p t htprio)]
    exact removePriorityPhase_order _ removalPriority removalPriority_nodup
      _ _ pre t post hsplit ⟨s, hs, hslen⟩
  · intro hdec t ht
    have hover : (removePriorityPhase (((n * 850 : Nat) : ℚ) * 1.05) removalPriority
        (allBlocks.map some) ((totalWeight (allBlocks.map some) : ℚ))).2
          > ((n * 850 : Nat) : ℚ) * 1.05 := by
      apply pdec
      rw [hpfix]
      exact hdec
    rw [pflt t (hprio_ne_p t ht)]
    exact removePriorityPhase_exhausts _ removalPriority _ _ hover t ht
  · intro c hex
    rw [pcnt c hex, hpfix]

theorem filterOf_eq (s : String) (l : List (Option Block)) :
    filterOf s l = (l.filterMap id).filter (fun b => b.type == s) := rfl

theorem countPle_eq (c : Nat) (l : List Block) :
    countPle c l = ((l.filter (fun b => b.type == "p")).filter
      (fun b => decide (getBlockWeight (some b) ≤ c))).length := by
  rw [countPle, List.filter_filter]
  congr 1
  apply List.filter_congr
  intro b _
  exact Bool.and_comm _ _

/-- Under the trim condition, the fit pass's blocks are the trim result. -/
theorem fitBlocks_of_over (blocks : List Block) (n : Nat)
    (h : (weightSum blocks : ℚ) > ((n * 850 : Nat) : ℚ) * 1.1) :
    fitBlocks blocks n = (trimResult blocks n).1.filterMap id := by
  have h2 : ((totalWeight (blocks.map some) : Nat) : ℚ)
      > ((n * 850 : Nat) : ℚ) * 1.1 := by
    rw [totalWeight_map_some]
    exact h
  simp only [fitBlocks, trimmedArray]
  rw [if_pos h2]
  rfl

/-- C5.  Trimming runs exactly when the total weight exceeds capacity
(`contentPages * 850`) by more than 10%.  When it runs: blocks are only
removed, never reordered (sublist); it stops as soon as the weight is within
5% of capacity, or else every quote, takeaway, statistic, key-term,
image-prompt and paragraph has been removed; each priority type is removed
from the end of the sequence toward the start (the survivors of that type are
an initial segment of the type's document order); the priority order
quote → takeaway → stat → key-term → image-prompt is respected (a
later-priority type loses blocks only after every earlier type was completely
removed, and paragraphs only after all five); and paragraphs are removed
longest-first (no paragraph lighter than a surviving one is ever removed). -/
theorem optimize_trim_spec (blocks : List Block) (n : Nat)
    (hb : blocks ≠ []) (hn : 1 ≤ n) :
    (¬ ((weightSum blocks : ℚ) > ((n * 850 : Nat) : ℚ) * 1.1) →
        (optimizeContentToFit blocks n).blocks = blocks)
    ∧ ((weightSum blocks : ℚ) > ((n * 850 : Nat) : ℚ) * 1.1 →
        ((optimizeContentToFit blocks n).blocks).Sublist blocks
        ∧ ((weightSum (optimizeContentToFit blocks n).blocks : ℚ)
              ≤ ((n * 850 : Nat) : ℚ) * 1.05
            ∨ ∀ b ∈ (optimizeContentToFit blocks n).blocks,
                b.type ∉ ("p" :: removalPriority))
        ∧ (∀ t ∈ removalPriority, ∃ rest,
            ((optimizeContentToFit blocks n).blocks.filter
              (fun b => b.type == t)) ++ rest
              = blocks.filter (fun b => b.type == t))
        ∧ (∀ pre t post, removalPriority = pre ++ t :: post →
            (∃ s ∈ post, countType s (optimizeContentToFit blocks n).blocks
                < countType s blocks) →
            countType t (optimizeContentToFit blocks n).blocks = 0)
        ∧ (countType "p" (optimizeContentToFit blocks n).blocks
              < countType "p" blocks →
            ∀ t ∈ removalPriority,
              countType t (optimizeContentToFit blocks n).blocks = 0)
        ∧ (∀ c : Nat, (∃ q ∈ (optimizeContentToFit blocks n).blocks,
              q.type = "p" ∧ c < getBlockWeight (some q)) →
            countPle c (optimizeContentToFit blocks n).blocks
              = countPle c blocks)) := by
  have hbe := optimize_blocks_eq blocks n hb
  refine ⟨fun hno => optimize_blocks_of_not_over blocks n hb hno, ?_⟩
  intro hover
  have hrb : (optimizeContentToFit blocks n).blocks
      = (trimResult blocks n).1.filterMap id := by
    rw [hbe, fitBlocks_of_over blocks n hover]
  obtain ⟨tsub, twq, tstop, tpre, tord, tpra, tcnt⟩ := trimResult_spec blocks n
  refine ⟨?_, ?_, ?_, ?_, ?_, ?_⟩
  · rw [hrb]
    exact tsub
  · rcases tstop with h | h
    · left
      rw [hrb]
      have hwe : ((weightSum ((trimResult blocks n).1.filterMap id) : Nat) : ℚ)
          = totalWeightQ (trimResult blocks n).1 :=
        (totalWeightQ_eq_weightSum _).symm
      rw [hwe, ← twq]
      exact h
    · right
      intro b hbmem hbt
      rw [hrb] at hbmem
      have hbin : b ∈ filterOf b.type (trimResult blocks n).1 := by
        rw [filterOf_eq]
        exact List.mem_filter.mpr ⟨hbmem, by simp⟩
      rw [h b.type hbt] at hbin
      cases hbin
  · intro t ht
    obtain ⟨rest, hrest⟩ := tpre t (removalPriority_ne_p t ht)
    rw [filterOf_eq] at hrest
    exact ⟨rest, by rw [hrb]; exact hrest⟩
  · intro pre t post hsplit hdec
    have hdec2 : ∃ s ∈ post, (filterOf s (trimResult blocks n).1).length
        < (blocks.filter (fun b => b.type == s)).length := by
      obtain ⟨s, hs, hlt⟩ := hdec
      refine ⟨s, hs, ?_⟩
      rw [filterOf_eq]
      simp only [countType, hrb] at hlt
      exact hlt
    have hempty := tord pre t post hsplit hdec2
    rw [filterOf_eq] at hempty
    simp only [countType, hrb, hempty]
    rfl
  · intro hdec t ht
    have hdec2 : (filterOf "p" (trimResult blocks n).1).length
        < (blocks.filter (fun b => b.type == "p")).length := by
      rw [filterOf_eq]
      simp only [countType, hrb] at hdec
      exact hdec
    have hempty := tpra hdec2 t ht
    rw [filterOf_eq] at hempty
    simp only [countType, hrb, hempty]
    rfl
  · rintro c ⟨q, hq, hqt, hqc⟩
    rw [hrb] at hq
    have hqin : q ∈ filterOf "p" (trimResult blocks n).1 := by
      rw [filterOf_eq]
      exact List.mem_filter.mpr ⟨hq, by simp [hqt]⟩
    have hlen := tcnt c ⟨q, hqin, hqc⟩
    rw [countPle_eq, countPle_eq, hrb, ← filterOf_eq]
    exact hlen

/-- Witness for C5: twenty statistics against one page (weight 4000 against
capacity 850) force the trim branch. -/
theorem optimize_trim_spec_witness :
    (List.replicate 20 (mkBlock "stat" "") : List Block) ≠ []
    ∧ 1 ≤ 1
    ∧ ((weightSum (List.replicate 20 (mkBlock "stat" "")) : ℚ)
        > ((1 * 850 : Nat) : ℚ) * 1.1)
    ∧ ((optimizeContentToFit (List.replicate 20 (mkBlock "stat" "")) 1).blocks).Sublist
        (List.replicate 20 (mkBlock "stat" "")) := by
  have hne : (List.replicate 20 (mkBlock "stat" "") : List Block) ≠ [] := by
    simp [mkBlock]
  have hw : weightSum (List.replicate 20 (mkBlock "stat" "")) = 4000 := by decide
  have hover : (weightSum (List.replicate 20 (mkBlock "stat" "")) : ℚ)
      > ((1 * 850 : Nat) : ℚ) * 1.1 := by
    rw [hw]
    push_cast
    norm_num
  have h := optimize_trim_spec (List.replicate 20 (mkBlock "stat" "")) 1 hne (le_refl 1)
  exact ⟨hne, le_refl 1, hover, (h.2 hover).1⟩

end GoodPDF
